import Mathlib

/-!
Verification of the Countree core (src/countree.py): topology construction
(`CustomNCBITaxa.get_lineage`, `CustomNCBITaxa.get_topology`), value
aggregation (`accumulate_values`), threshold computation
(`get_threshold_indices`), input parsing (`read_data`) and the exporter
(`tree_to_dict`).

Modelling conventions:
* Python floats are modelled as exact rationals (ℚ); the claims under
  scrutiny are algebraic/structural, not about rounding.
* `get_lineage` walks parent links in a SQLite table; the table is modelled
  as a partial map `parent : Nat → Option Nat` and the unbounded while-loop
  carries explicit fuel (the Python loop would diverge on a cyclic table;
  on any real taxonomy a fuel bound larger than the tree depth is exact).
* ete3 tree mutation is modelled by functional update; `add_feature`
  overwrites an attribute, modelled by replacing the corresponding field.
-/

/-- The `--info` CLI switch: `info_type` in the source, `count` or `ratio`. -/
inductive Mode : Type where
  | count : Mode
  | ratio : Mode
deriving DecidableEq

/-! ## Topology builder (countree.py lines 28–71)

`PTree` models the ete3 `Tree` node as built by `get_topology`: a `name`
(`str(taxid)` for inserted nodes, the empty default for the synthetic root,
modelled as `Option Nat`), the `rank` and `sci_name` features (present only
on inserted nodes) and the ordered child list. -/

inductive PTree : Type where
  | node : Option Nat → Option String → Option String → List PTree → PTree

def PTree.name : PTree → Option Nat
  | .node n _ _ _ => n

def PTree.children : PTree → List PTree
  | .node _ _ _ cs => cs

/-- `CustomNCBITaxa.get_lineage`'s while-loop (lines 32–38): climb parent
links until taxid 1 (the universal root, never recorded) or a missing
parent row, accumulating taxids; the Python list is built child-first and
reversed, here the accumulator is prepended so the result is root-first. -/
def lineage_loop (parent : Nat → Option Nat) : Nat → Nat → List Nat → List Nat
  | 0, _, acc => acc
  | fuel + 1, taxid, acc =>
    if taxid = 1 then acc
    else
      match parent taxid with
      | none => acc
      | some p => lineage_loop parent fuel p (taxid :: acc)

/-- `CustomNCBITaxa.get_lineage` (lines 28–39): root-first ancestor chain,
exclusive of taxid 1, inclusive of the queried taxid (when resolvable). -/
def get_lineage (parent : Nat → Option Nat) (fuel : Nat) (taxid : Nat) : List Nat :=
  lineage_loop parent fuel taxid []

/-- The `common_lineage` accumulator of `get_topology` (lines 49–55): the
first taxid's lineage, then `intersection_update` with each further lineage
(intersection modelled as membership filter; only membership is ever used).
For an empty input the Python variable stays `None` and is never read; here
the empty list is returned. -/
def commonLineage (parent : Nat → Option Nat) (fuel : Nat) : List Nat → List Nat
  | [] => []
  | t :: ts =>
    ts.foldl (fun acc s => acc.filter (fun x => decide (x ∈ get_lineage parent fuel s)))
      (get_lineage parent fuel t)

/-- The chain of fresh nodes `get_topology` creates when it walks the part
of a lineage that finds no existing child (lines 64–68): each ancestor gets
a new node with its `rank` and `sci_name` features and becomes the current
insertion point for the next one. -/
def chainTree (rk sci : Nat → String) (a : Nat) : List Nat → PTree
  | [] => .node (some a) (some (rk a)) (some (sci a)) []
  | b :: rest => .node (some a) (some (rk a)) (some (sci a)) [chainTree rk sci b rest]

/-- In-place mutation of the first child whose name matches `str(a)`
(ete3 mutates the found child object; functionally, it is replaced). -/
def replaceFirst (cs : List PTree) (a : Nat) (c' : PTree) : List PTree :=
  match cs with
  | [] => []
  | c :: rest => if c.name = some a then c' :: rest else c :: replaceFirst rest a c'

/-- The per-taxid insertion walk of `get_topology` (lines 60–70), applied to
the lineage already filtered by the common-lineage test of line 62: descend
into the first child whose name matches the ancestor (line 63), else create
a fresh node chain (`add_child` appends at the end of the child list). -/
def insertPath (rk sci : Nat → String) : PTree → List Nat → PTree
  | t, [] => t
  | .node n r s cs, a :: rest =>
    match cs.find? (fun c => c.name = some a) with
    | some c => .node n r s (replaceFirst cs a (insertPath rk sci c rest))
    | none => .node n r s (cs ++ [chainTree rk sci a rest])

/-- `CustomNCBITaxa.get_topology` (lines 48–71): compute the common lineage,
then insert every taxid's lineage, skipping ancestors in the common lineage
(the inline `if ancestor not in common_lineage` skip equals filtering the
lineage first: a skipped ancestor leaves `current_node` unchanged), into a
tree grown from the bare synthetic root `Tree()`. -/
def get_topology (parent : Nat → Option Nat) (rk sci : Nat → String) (fuel : Nat)
    (taxids : List Nat) : PTree :=
  let common := commonLineage parent fuel taxids
  taxids.foldl
    (fun t tx =>
      insertPath rk sci t ((get_lineage parent fuel tx).filter (fun a => decide (a ∉ common))))
    (PTree.node none none none [])

mutual
/-- All taxids carried by nodes of the tree (the synthetic root carries
none). -/
def treeTaxids : PTree → List Nat
  | .node n _ _ cs => n.toList ++ treeTaxidsF cs
/-- `treeTaxids` over a child list. -/
def treeTaxidsF : List PTree → List Nat
  | [] => []
  | c :: cs => treeTaxids c ++ treeTaxidsF cs
end

mutual
/-- Taxids of the leaves (childless nodes) of the tree; a childless
synthetic root contributes nothing, having no taxid. -/
def leafTaxids : PTree → List Nat
  | .node n _ _ [] => n.toList
  | .node _ _ _ (c :: cs) => leafTaxidsF (c :: cs)
/-- `leafTaxids` over a child list. -/
def leafTaxidsF : List PTree → List Nat
  | [] => []
  | c :: cs => leafTaxids c ++ leafTaxidsF cs
end

/-- The child-list level of `insertPath`: how the walk of lines 60–70
transforms the current insertion point's child list (find the first child
named `str(a)` and descend into it, else append a fresh chain). -/
def insertF (rk sci : Nat → String) (cs : List PTree) : List Nat → List PTree
  | [] => cs
  | a :: rest =>
    match cs.find? (fun c => c.name = some a) with
    | some c => replaceFirst cs a (insertPath rk sci c rest)
    | none => cs ++ [chainTree rk sci a rest]

mutual
/-- Every taxid sequence read along a root-to-node walk of the tree
(nonempty, name-labelled). A node the builder never produces (name `none`
below the root) contributes nothing. -/
def nodePaths : PTree → List (List Nat)
  | .node none _ _ _ => []
  | .node (some a) _ _ cs => [a] :: (forestPaths cs).map (fun q => a :: q)
/-- `nodePaths` over a child list. -/
def forestPaths : List PTree → List (List Nat)
  | [] => []
  | c :: cs => nodePaths c ++ forestPaths cs
end

mutual
/-- The root-to-leaf taxid sequences of the tree. -/
def leafPathsN : PTree → List (List Nat)
  | .node none _ _ _ => []
  | .node (some a) _ _ [] => [[a]]
  | .node (some a) _ _ (c :: cs) => (leafPathsF (c :: cs)).map (fun q => a :: q)
/-- `leafPathsN` over a child list. -/
def leafPathsF : List PTree → List (List Nat)
  | [] => []
  | c :: cs => leafPathsN c ++ leafPathsF cs
end

mutual
/-- Well-formedness of the forests `get_topology` builds: every node has a
`some` name and sibling names are pairwise distinct (line 63 reuses an
existing name rather than duplicating it). -/
def wfN : PTree → Bool
  | .node n _ _ cs => n.isSome && wfF cs
/-- `wfN` over a child list, plus sibling-name distinctness. -/
def wfF : List PTree → Bool
  | [] => true
  | c :: cs => wfN c && cs.all (fun d => decide (d.name ≠ c.name)) && wfF cs
end

/-- `q` strictly extends `p`: `q` is `p` continued by at least one more
step. The inserted lineage of a strict ancestor is strictly extended by the
inserted lineage of its descendant. -/
def ProperExt (p q : List Nat) : Prop := ∃ w, w ≠ [] ∧ q = p ++ w

/-- The longest shared initial segment of two root-first lineages. -/
def sharedRoot : List Nat → List Nat → List Nat
  | a :: u, b :: v => if a = b then a :: sharedRoot u v else []
  | _, _ => []

/-- Two lineages drawn from one tree-shaped parent map agree on a shared
initial segment and are elementwise disjoint afterwards: after the walks
diverge they can never meet again. Stated decidably over the two lists. -/
def laminar (ls lt : List Nat) : Bool :=
  ((ls.drop (sharedRoot ls lt).length).all fun x => decide (x ∉ lt)) &&
    ((lt.drop (sharedRoot ls lt).length).all fun y => decide (y ∉ ls))

/-- The path `get_topology` inserts for one input taxid (lines 61–62): the
taxid's lineage with every member of the common lineage filtered out. -/
def prunedLineage (parent : Nat → Option Nat) (fuel : Nat) (taxids : List Nat)
    (tx : Nat) : List Nat :=
  (get_lineage parent fuel tx).filter
    (fun a => decide (a ∉ commonLineage parent fuel taxids))

section TopologyScratch

def exParent : Nat → Option Nat := fun t => if t = 3 then some 2 else if t = 2 then some 1 else none

def exRank : Nat → String := fun _ => "genus"

def exSci : Nat → String := fun _ => "x"

def exParentSingle : Nat → Option Nat := fun t => if t = 42 then some 1 else none

end TopologyScratch

/-! ## Value aggregator (countree.py lines 164–195)

`VTree` models a tree node after `process_node` (lines 222–264) has attached
the numeric features: `count`, `value` and (ratio mode) `whole_count`, plus
the three cumulative features that `accumulate_values` may attach
(`Option`: `none` = attribute absent, `getattr` fallback applies). The
`name`/`rank`/`sci_name` string features are irrelevant to every numeric
claim and are omitted; `whole_count` is kept as a plain field (unused, and
in Python absent, in count mode). -/

inductive VTree : Type where
  | node : ℚ → ℚ → ℚ → Option ℚ → Option ℚ → Option ℚ → List VTree → VTree

def VTree.count : VTree → ℚ
  | .node c _ _ _ _ _ _ => c

def VTree.value : VTree → ℚ
  | .node _ v _ _ _ _ _ => v

def VTree.whole_count : VTree → ℚ
  | .node _ _ w _ _ _ _ => w

def VTree.cumulative_count : VTree → Option ℚ
  | .node _ _ _ cc _ _ _ => cc

def VTree.cumulative_value : VTree → Option ℚ
  | .node _ _ _ _ cv _ _ => cv

def VTree.cumulative_whole_count : VTree → Option ℚ
  | .node _ _ _ _ _ cw _ => cw

def VTree.children : VTree → List VTree
  | .node _ _ _ _ _ _ cs => cs

mutual
/-- `accumulate_values(node, 'count')` (lines 164–195, the `info_type ==
'count'` branch): a childless node returns its own `(count, value)` and is
not touched (lines 165–167); an internal node totals its own count/value
with the children's returned totals in child order, attaches the totals as
the `cumulative_count`/`cumulative_value` features (`add_feature`
overwrites) and returns them. Result: the updated tree and the returned
pair. -/
def accumulate_values_count : VTree → VTree × ℚ × ℚ
  | .node c v w cc cv cw [] => (.node c v w cc cv cw [], c, v)
  | .node c v w _ _ cw (ch :: chs) =>
    let r := accumulate_children_count (ch :: chs) c v
    (.node c v w (some r.2.1) (some r.2.2) cw r.1, r.2.1, r.2.2)
/-- The `for child in node.children` loop of the count branch (lines
176–180), threading the running `total_count`/`total_value`. -/
def accumulate_children_count : List VTree → ℚ → ℚ → List VTree × ℚ × ℚ
  | [], tc, tv => ([], tc, tv)
  | ch :: chs, tc, tv =>
    let r := accumulate_values_count ch
    let rs := accumulate_children_count chs (tc + r.2.1) (tv + r.2.2)
    (r.1 :: rs.1, rs.2.1, rs.2.2)
end

mutual
/-- `accumulate_values(node, 'ratio')` (lines 164–195, the ratio branch): a
childless node returns its own `(count, whole_count, value)` untouched
(lines 168–169); an internal node totals count and whole_count over the
children (the children's returned values are ignored, line 182–184),
recomputes `total_value = total_count / total_whole_count` with 0 for a
zero denominator (line 187), attaches all three cumulative features and
returns the triple. Result: the updated tree and `(count, whole, value)`. -/
def accumulate_values_ratio : VTree → VTree × ℚ × ℚ × ℚ
  | .node c v w cc cv cw [] => (.node c v w cc cv cw [], c, w, v)
  | .node c v w _ _ _ (ch :: chs) =>
    let r := accumulate_children_ratio (ch :: chs) c w
    let tv := if r.2.2 ≠ 0 then r.2.1 / r.2.2 else 0
    (.node c v w (some r.2.1) (some tv) (some r.2.2) r.1, r.2.1, r.2.2, tv)
/-- The children loop of the ratio branch (lines 176, 181–184), threading
`total_count` and `total_whole_count`. -/
def accumulate_children_ratio : List VTree → ℚ → ℚ → List VTree × ℚ × ℚ
  | [], tc, tw => ([], tc, tw)
  | ch :: chs, tc, tw =>
    let r := accumulate_values_ratio ch
    let rs := accumulate_children_ratio chs (tc + r.2.1) (tw + r.2.2.1)
    (r.1 :: rs.1, rs.2)
end

/-- Effective cumulative count of a node, as the exporter `tree_to_dict`
reads it (line 957): the attached feature, else the node's own `count`. -/
def cum_count (t : VTree) : ℚ := t.cumulative_count.getD t.count

/-- Effective cumulative value, as read on line 958: the attached feature,
else the node's own `value`. -/
def cum_value (t : VTree) : ℚ := t.cumulative_value.getD t.value

/-- Effective cumulative whole count: the attached feature, else the node's
own `whole_count` (for a leaf the cumulative whole count is its own). -/
def cum_whole (t : VTree) : ℚ := t.cumulative_whole_count.getD t.whole_count

mutual
/-- Decidable check that a Boolean node predicate holds at every node of
the tree. -/
def allNodes (p : VTree → Bool) : VTree → Bool
  | .node c v w cc cv cw cs => p (.node c v w cc cv cw cs) && allNodesF p cs
/-- `allNodes` over a child list. -/
def allNodesF (p : VTree → Bool) : List VTree → Bool
  | [] => true
  | t :: ts => allNodes p t && allNodesF p ts
end

/-- A tree fresh out of `get_topology` + `process_node`: no cumulative
feature has been attached anywhere yet. -/
def fresh : VTree → Bool :=
  allNodes fun t =>
    t.cumulative_count.isNone && t.cumulative_value.isNone && t.cumulative_whole_count.isNone

/-- The cumulative-count invariant at one node, on effective (exported)
cumulatives: own count plus the children's cumulative counts. -/
def ccInv (t : VTree) : Bool :=
  decide (cum_count t = t.count + (t.children.map cum_count).sum)

/-- The cumulative-value invariant (count mode) at one node. -/
def cvInv (t : VTree) : Bool :=
  decide (cum_value t = t.value + (t.children.map cum_value).sum)

/-- The ratio-mode invariant at one node: the cumulative value is the
cumulative count over the cumulative whole count, 0 for a 0 denominator. -/
def ratioInv (t : VTree) : Bool :=
  decide (cum_value t = if cum_whole t ≠ 0 then cum_count t / cum_whole t else 0)

/-- A leaf whose features came from `read_data` (lines 144–146) /
`process_node` (lines 233–235) in ratio mode: its `value` is
`count / whole_count`, 0 for a 0 denominator (nodes without an observation
get count 0, value 0, whole_count 0). Internal nodes are unconstrained. -/
def leafRatioOk (t : VTree) : Bool :=
  if t.children.isEmpty then
    decide (t.value = if t.whole_count ≠ 0 then t.count / t.whole_count else 0)
  else true

/-- The frame property of the count-mode pass at one node: the cumulative
count/value features are present exactly on nodes with children. -/
def cumOnInternal (t : VTree) : Bool :=
  if t.children.isEmpty then t.cumulative_count.isNone && t.cumulative_value.isNone
  else t.cumulative_count.isSome && t.cumulative_value.isSome

/-- The frame property of the ratio-mode pass: additionally the
cumulative_whole_count feature is present exactly on nodes with
children. -/
def cumOnInternalR (t : VTree) : Bool :=
  if t.children.isEmpty then
    t.cumulative_count.isNone && t.cumulative_value.isNone &&
      t.cumulative_whole_count.isNone
  else
    t.cumulative_count.isSome && t.cumulative_value.isSome &&
      t.cumulative_whole_count.isSome

/-- The record `tree_to_dict` (lines 949–964) builds for a node, omitting
the `name`/`rank`/`sci_name` string fields: `count` and `value` (`getattr`
default 0 never fires: every processed node has them), the cumulative
fields with their own-value fallbacks, `whole_count`, and
`cumulative_whole_count` which is only present (`hasattr`) when the
feature was attached. -/
inductive NodeDict : Type where
  | mk : ℚ → ℚ → ℚ → ℚ → ℚ → Option ℚ → List NodeDict → NodeDict

def NodeDict.cumulative_count : NodeDict → ℚ
  | .mk _ _ cc _ _ _ _ => cc

def NodeDict.cumulative_value : NodeDict → ℚ
  | .mk _ _ _ cv _ _ _ => cv

mutual
/-- `tree_to_dict` (lines 949–964) on the modelled numeric fields: field
order `count`, `value`, `cumulative_count`, `cumulative_value`,
`whole_count`, `cumulative_whole_count`, `children`. -/
def tree_to_dict : VTree → NodeDict
  | .node c v w cc cv cw cs => .mk c v (cc.getD c) (cv.getD v) w cw (tree_to_dictF cs)
/-- `tree_to_dict` over a child list. -/
def tree_to_dictF : List VTree → List NodeDict
  | [] => []
  | t :: ts => tree_to_dict t :: tree_to_dictF ts
end

section AggregationScratch

def exVTree : VTree :=
  .node 1 2 0 none none none
    [.node 3 4 0 none none none [], .node 5 6 0 none none none [.node 7 8 0 none none none []]]

def exRTree : VTree :=
  .node 0 0 0 none none none
    [.node 3 (3 / 4) 4 none none none [], .node 0 0 0 none none none []]

end AggregationScratch

/-! ## Threshold classifier (countree.py lines 151–162) -/

/-- Stable descending insertion of one value: the new value goes in front
of the first strictly smaller element, after any equal ones. Models one
step of Python's stable `sorted(..., reverse=True)`. -/
def insertDesc (v : ℚ) : List ℚ → List ℚ
  | [] => [v]
  | w :: ws => if w < v then v :: w :: ws else w :: insertDesc v ws

/-- `sorted(data_values, reverse=True)` (line 152): stable descending
sort, modelled as insertion sort. -/
def sortDesc (l : List ℚ) : List ℚ := l.foldr insertDesc []

/-- One iteration of the `for i, value in enumerate(sorted_values)` loop
body (lines 156–159) on the state `(cumulative, thresholds)`: add the value
to the running sum, then a single `if` appends the value as a threshold
when the cumulative mass reaches `total * (1 - 1/2**len(thresholds))`. -/
def thresh_step (total : ℚ) (st : ℚ × List ℚ) (v : ℚ) : ℚ × List ℚ :=
  let cumulative := st.1 + v
  if cumulative ≥ total * (1 - 1 / 2 ^ st.2.length) then (cumulative, st.2 ++ [v])
  else (cumulative, st.2)

/-- The whole loop of lines 156–161: run `thresh_step` over the sorted
values, stopping as soon as 7 thresholds are collected (the `break` is
checked after the conditional append). -/
def thresh_loop (total : ℚ) : List ℚ → ℚ × List ℚ → List ℚ
  | [], st => st.2
  | v :: vs, st =>
    let st' := thresh_step total st v
    if st'.2.length = 7 then st'.2 else thresh_loop total vs st'

/-- `get_threshold_indices` (lines 151–162): sort descending, take the
grand total, and run the threshold loop from `cumulative = 0`,
`thresholds = []`. -/
def get_threshold_indices (data_values : List ℚ) : List ℚ :=
  let sorted_values := sortDesc data_values
  thresh_loop sorted_values.sum sorted_values (0, [])

section ThresholdScratch

end ThresholdScratch

/-! ## Input parser (countree.py lines 131–149)

A text line is modelled after `line.strip().split('\t')`: a list of cells,
each cell remembering what `int(...)` and `float(...)` make of it (`none` =
the call raises `ValueError`; a cell parsing as an int also parses as a
float). The output models the `data` dict as an insertion-ordered
association list plus the number of warning lines printed. -/

structure Cell where
  asInt : Option Int
  asFloat : Option ℚ

/-- One `data[taxid]` record: `value` and `count` always, `whole_count`
only in ratio mode (line 146). -/
structure Obs where
  value : ℚ
  count : ℚ
  whole_count : Option ℚ
deriving DecidableEq

/-- Python dict assignment `data[taxid] = ...`: overwrite in place, or
append a new key at the end. -/
def upsert (data : List (Int × Obs)) (k : Int) (o : Obs) : List (Int × Obs) :=
  match data with
  | [] => [(k, o)]
  | (k', o') :: rest => if k' = k then (k, o) :: rest else (k', o') :: upsert rest k o

/-- One iteration of `read_data`'s line loop (lines 134–148): a line with
fewer than 3 fields fails the `len(parts) >= 3` guard and is skipped with
no warning; with 3 or more fields, `int(parts[0])`, `float(parts[1])` and
`float(parts[2])` are attempted and a `ValueError` in any of them warns and
skips; otherwise the record is stored (count mode: `value = count`; ratio
mode: `value = count / whole_count` or 0 for a zero denominator). -/
def read_data_line (info_type : Mode) (st : List (Int × Obs) × Nat) (parts : List Cell) :
    List (Int × Obs) × Nat :=
  match parts with
  | p0 :: p1 :: p2 :: _ =>
    match p0.asInt, p1.asFloat, p2.asFloat with
    | some taxid, some count, some whole_count =>
      match info_type with
      | .count => (upsert st.1 taxid ⟨count, count, none⟩, st.2)
      | .ratio =>
        (upsert st.1 taxid
          ⟨if whole_count ≠ 0 then count / whole_count else 0, count, some whole_count⟩, st.2)
    | _, _, _ => (st.1, st.2 + 1)
  | _ => st

/-- `read_data` (lines 131–149): fold the line handler over the input,
starting from the empty dict and zero warnings. -/
def read_data (info_type : Mode) (lines : List (List Cell)) : List (Int × Obs) × Nat :=
  lines.foldl (read_data_line info_type) ([], 0)

section ReadDataScratch

/-- A cell holding a decimal integer literal: both parses succeed. -/
def intCell (n : Int) : Cell := ⟨some n, some (n : ℚ)⟩

/-- A cell holding a float literal that is not an integer literal. -/
def floatCell (q : ℚ) : Cell := ⟨none, some q⟩

/-- A cell no numeric parse accepts. -/
def badCell : Cell := ⟨none, none⟩

end ReadDataScratch

/-! ## Topology lemmas -/

theorem treeTaxidsF_append (l1 l2 : List PTree) :
    treeTaxidsF (l1 ++ l2) = treeTaxidsF l1 ++ treeTaxidsF l2 := by
  induction l1 with
  | nil => simp [treeTaxidsF]
  | cons c cs ih => simp [treeTaxidsF, ih]

theorem treeTaxids_chainTree (rk sci : Nat → String) :
    ∀ (a : Nat) (rest : List Nat), treeTaxids (chainTree rk sci a rest) = a :: rest
  | a, [] => by simp [chainTree, treeTaxids, treeTaxidsF]
  | a, b :: rest => by
    simp [chainTree, treeTaxids, treeTaxidsF, treeTaxids_chainTree rk sci b rest]

theorem leafTaxids_chainTree (rk sci : Nat → String) :
    ∀ (a : Nat) (rest : List Nat),
      leafTaxids (chainTree rk sci a rest) = [rest.getLastD a]
  | a, [] => by simp [chainTree, leafTaxids]
  | a, b :: rest => by
    simp only [chainTree, leafTaxids, leafTaxidsF, List.append_nil,
      leafTaxids_chainTree rk sci b rest, List.getLastD_cons]

theorem mem_treeTaxidsF_of_mem {x : Nat} {c : PTree} :
    ∀ {cs : List PTree}, c ∈ cs → x ∈ treeTaxids c → x ∈ treeTaxidsF cs := by
  intro cs
  induction cs with
  | nil => intro h; exact absurd h (List.not_mem_nil c)
  | cons d ds ih =>
    intro hc hx
    rcases List.mem_cons.1 hc with rfl | hc
    · simp [treeTaxidsF, hx]
    · simp [treeTaxidsF, ih hc hx]

theorem mem_treeTaxidsF_replaceFirst {x a : Nat} {c' : PTree} :
    ∀ {cs : List PTree}, x ∈ treeTaxidsF (replaceFirst cs a c') →
      x ∈ treeTaxidsF cs ∨ x ∈ treeTaxids c' := by
  intro cs
  induction cs with
  | nil => intro h; simp [replaceFirst, treeTaxidsF] at h
  | cons d ds ih =>
    intro h
    simp only [replaceFirst] at h
    split at h
    · rcases List.mem_append.1 (by simpa [treeTaxidsF] using h) with h | h
      · exact Or.inr h
      · exact Or.inl (by simp [treeTaxidsF, h])
    · rcases List.mem_append.1 (by simpa [treeTaxidsF] using h) with h | h
      · exact Or.inl (by simp [treeTaxidsF, h])
      · rcases ih h with h | h
        · exact Or.inl (by simp [treeTaxidsF, h])
        · exact Or.inr h

theorem mem_treeTaxids_insertPath (rk sci : Nat → String) :
    ∀ (path : List Nat) (t : PTree) (x : Nat),
      x ∈ treeTaxids (insertPath rk sci t path) → x ∈ treeTaxids t ∨ x ∈ path
  | [], t, x => by simp [insertPath]
  | a :: rest, .node n r s cs, x => by
    intro h
    simp only [insertPath] at h
    rcases hfind : cs.find? (fun c => decide (c.name = some a)) with _ | c
    · rw [hfind] at h
      simp only [treeTaxids, treeTaxidsF_append, treeTaxidsF, List.append_nil,
        treeTaxids_chainTree, List.mem_append] at h
      rcases h with h | h | h
      · exact Or.inl (by simp [treeTaxids, h])
      · exact Or.inl (by simp [treeTaxids, List.mem_append, h])
      · exact Or.inr h
    · rw [hfind] at h
      simp only [treeTaxids] at h
      rcases List.mem_append.1 h with h | h
      · exact Or.inl (by simp [treeTaxids, h])
      · rcases mem_treeTaxidsF_replaceFirst h with h | h
        · exact Or.inl (by simp [treeTaxids, List.mem_append, h])
        · rcases mem_treeTaxids_insertPath rk sci rest c x h with h | h
          · have hc : c ∈ cs := List.mem_of_find?_eq_some hfind
            exact Or.inl (by simp [treeTaxids, List.mem_append,
              mem_treeTaxidsF_of_mem hc h])
          · exact Or.inr (List.mem_cons_of_mem a h)

theorem not_mem_treeTaxids_foldl (rk sci : Nat → String) (x : Nat) (common : List Nat)
    (hx : x ∈ common) (f : Nat → List Nat) :
    ∀ (l : List Nat) (t : PTree), x ∉ treeTaxids t →
      x ∉ treeTaxids
        (l.foldl
          (fun t tx => insertPath rk sci t ((f tx).filter (fun a => decide (a ∉ common)))) t) := by
  intro l
  induction l with
  | nil => intro t ht; simpa using ht
  | cons tx l ih =>
    intro t ht
    simp only [List.foldl_cons]
    refine ih _ ?_
    intro hmem
    rcases mem_treeTaxids_insertPath rk sci _ t x hmem with h | h
    · exact ht h
    · have := List.of_mem_filter h
      simp [hx] at this

/-- C3: every taxid belonging to the common lineage is excluded from the tree
`get_topology` builds: line 62 inserts an ancestor only when it is not in
`common_lineage`. -/
theorem common_lineage_excluded (parent : Nat → Option Nat) (rk sci : Nat → String)
    (fuel : Nat) (taxids : List Nat) (x : Nat)
    (hx : x ∈ commonLineage parent fuel taxids) :
    x ∉ treeTaxids (get_topology parent rk sci fuel taxids) := by
  unfold get_topology
  exact not_mem_treeTaxids_foldl rk sci x _ hx _ taxids _ (by simp [treeTaxids, treeTaxidsF])

/-- C4 (amended): for a single input taxid the common lineage is the taxid's whole
lineage, so every ancestor is filtered out and nothing is ever inserted:
`get_topology` returns the bare synthetic root. -/
theorem single_taxid_topology (parent : Nat → Option Nat) (rk sci : Nat → String)
    (fuel : Nat) (t : Nat) :
    commonLineage parent fuel [t] = get_lineage parent fuel t ∧
      get_topology parent rk sci fuel [t] = PTree.node none none none [] ∧
      treeTaxids (get_topology parent rk sci fuel [t]) = [] := by
  have hcommon : commonLineage parent fuel [t] = get_lineage parent fuel t := by
    simp [commonLineage]
  have hfilter :
      (get_lineage parent fuel t).filter
        (fun a => decide (a ∉ commonLineage parent fuel [t])) = [] := by
    rw [List.filter_eq_nil_iff]
    intro a ha
    simp [hcommon, ha]
  have htop : get_topology parent rk sci fuel [t] = PTree.node none none none [] := by
    unfold get_topology
    simp only [decide_not] at hfilter
    simp [hfilter, insertPath]
  exact ⟨hcommon, htop, by simp [htop, treeTaxids, treeTaxidsF]⟩

/-- Two resolvable taxids `A` and `B` where `A` is a strict ancestor of `B`
(so `A`'s lineage `la`, which ends in `A`, is an initial segment of `B`'s
lineage, which continues with `b :: rest` down to `B`): the common lineage
is exactly `la`, so `A` is pruned and never appears in the tree; the built
tree is the single chain `b :: rest` below the synthetic root, and its only
leaf is `B`. -/
theorem ancestor_descendant_topology (parent : Nat → Option Nat) (rk sci : Nat → String)
    (fuel : Nat) (A B : Nat) (la : List Nat) (b : Nat) (rest : List Nat)
    (hA : get_lineage parent fuel A = la)
    (hB : get_lineage parent fuel B = la ++ b :: rest)
    (hAla : A ∈ la)
    (hlast : rest.getLastD b = B)
    (hdisj : ∀ x ∈ b :: rest, x ∉ la) :
    treeTaxids (get_topology parent rk sci fuel [A, B]) = b :: rest ∧
      leafTaxids (get_topology parent rk sci fuel [A, B]) = [B] ∧
      A ∉ treeTaxids (get_topology parent rk sci fuel [A, B]) ∧
      A ∈ commonLineage parent fuel [A, B] := by
  have hcommon : commonLineage parent fuel [A, B] = la := by
    simp only [commonLineage, List.foldl_cons, List.foldl_nil, hA, hB]
    refine List.filter_eq_self.2 ?_
    intro x hx
    simp [hx]
  have hfA : la.filter (fun a => decide (a ∉ commonLineage parent fuel [A, B])) = [] := by
    rw [List.filter_eq_nil_iff]
    intro a ha
    simp [hcommon, ha]
  have hfB :
      (la ++ b :: rest).filter (fun a => decide (a ∉ commonLineage parent fuel [A, B])) =
        b :: rest := by
    rw [List.filter_append, hfA, List.nil_append]
    refine List.filter_eq_self.2 ?_
    intro x hx
    simp [hcommon, hdisj x hx]
  have htop :
      get_topology parent rk sci fuel [A, B] =
        PTree.node none none none [chainTree rk sci b rest] := by
    unfold get_topology
    simp only [List.foldl_cons, List.foldl_nil, hA, hB]
    rw [hfA, hfB]
    simp [insertPath]
  refine ⟨?_, ?_, ?_, ?_⟩
  · simp [htop, treeTaxids, treeTaxidsF, treeTaxids_chainTree]
  · rw [htop]
    simp only [leafTaxids, leafTaxidsF, List.append_nil, leafTaxids_chainTree]
    rw [hlast]
  · intro hmem
    rw [htop] at hmem
    simp only [treeTaxids, treeTaxidsF, List.append_nil, Option.toList_none,
      List.nil_append, treeTaxids_chainTree] at hmem
    exact hdisj A hmem hAla
  · rw [hcommon]; exact hAla

/-- Concretisation of `ancestor_descendant_topology`: taxonomy 1 → 2 → 3,
input `[2, 3]`; taxid 2 is a strict ancestor of 3, sits in the common
lineage, and is absent from the tree, whose node set and leaf set are both
exactly `[3]`. -/
theorem ancestor_descendant_topology_witness :
    treeTaxids (get_topology exParent exRank exSci 10 [2, 3]) = [3] ∧
      leafTaxids (get_topology exParent exRank exSci 10 [2, 3]) = [3] ∧
      2 ∉ treeTaxids (get_topology exParent exRank exSci 10 [2, 3]) ∧
      2 ∈ commonLineage exParent 10 [2, 3] :=
  ancestor_descendant_topology exParent exRank exSci 10 2 3 [2] 3 []
    (by decide) (by decide) (by decide) (by decide) (by decide)

/-- C2 counterexample: refutes the claim that a strict-ancestor input taxid appears
in the tree as an internal node with its descendant as only child: with
taxonomy 1 → 2 → 3 and inputs `{2, 3}` (lineages `[2]` and `[2, 3]`, both
resolvable), the whole tree below the synthetic root is the single leaf 3;
taxid 2 is in the common lineage and appears nowhere. -/
theorem ancestor_not_internal_node_cex :
    get_lineage exParent 10 2 = [2] ∧ get_lineage exParent 10 3 = [2, 3] ∧
      treeTaxids (get_topology exParent exRank exSci 10 [2, 3]) = [3] ∧
      ¬ 2 ∈ treeTaxids (get_topology exParent exRank exSci 10 [2, 3]) := by
  decide

/-- C4 counterexample: refutes the claim that a single resolvable input taxid yields
one leaf node carrying that taxid under the synthetic root: with taxid 42
resolvable (lineage `[42]`), `get_topology` returns the bare synthetic root
with no children at all and no node carries 42. -/
theorem single_taxid_no_leaf_cex :
    get_lineage exParentSingle 10 42 = [42] ∧
      (get_topology exParentSingle exRank exSci 10 [42]).children = [] ∧
      treeTaxids (get_topology exParentSingle exRank exSci 10 [42]) = [] :=
  ⟨rfl, rfl, rfl⟩

/-- C3 witness, concretising `common_lineage_excluded`: taxid 2 lies in the common
lineage of inputs `[2, 3]` and is not a node of the built tree. -/
theorem common_lineage_excluded_witness :
    2 ∉ treeTaxids (get_topology exParent exRank exSci 10 [2, 3]) :=
  common_lineage_excluded exParent exRank exSci 10 [2, 3] 2 (by decide)

/-! ## Trie lemmas: the forest built by repeated insertion -/

theorem insertPath_node (rk sci : Nat → String) (n : Option Nat) (r s : Option String)
    (cs : List PTree) (p : List Nat) :
    insertPath rk sci (.node n r s cs) p = .node n r s (insertF rk sci cs p) := by
  cases p with
  | nil => rfl
  | cons a rest =>
    simp only [insertPath, insertF]
    cases hfind : cs.find? (fun c => decide (c.name = some a)) <;> rfl

theorem insertF_cons_eq (rk sci : Nat → String) {c : PTree} {a : Nat}
    (h : c.name = some a) (cs : List PTree) (rest : List Nat) :
    insertF rk sci (c :: cs) (a :: rest) = insertPath rk sci c rest :: cs := by
  have hd : decide (c.name = some a) = true := by simp [h]
  simp [insertF, List.find?, hd, replaceFirst, h]

theorem insertF_cons_ne (rk sci : Nat → String) {c : PTree} {a : Nat}
    (h : ¬ c.name = some a) (cs : List PTree) (rest : List Nat) :
    insertF rk sci (c :: cs) (a :: rest) = c :: insertF rk sci cs (a :: rest) := by
  have hd : decide (c.name = some a) = false := by simp [h]
  simp only [insertF, List.find?, hd]
  cases hfind : cs.find? (fun d => decide (d.name = some a)) with
  | none => simp [insertF, List.find?, hfind]
  | some d => simp [insertF, List.find?, hfind, replaceFirst, h]

theorem insertF_nil (rk sci : Nat → String) (a : Nat) (rest : List Nat) :
    insertF rk sci [] (a :: rest) = [chainTree rk sci a rest] := rfl

theorem insertF_ne_nil (rk sci : Nat → String) :
    ∀ (p : List Nat) (cs : List PTree), cs ≠ [] ∨ p ≠ [] → insertF rk sci cs p ≠ [] := by
  intro p cs h
  match p, cs, h with
  | [], cs, h => simpa [insertF] using h.resolve_right (by simp)
  | a :: rest, [], _ => simp [insertF_nil]
  | a :: rest, c :: cs, _ =>
    by_cases hname : c.name = some a
    · simp [insertF_cons_eq rk sci hname]
    · simp [insertF_cons_ne rk sci hname]

theorem forestPaths_append (u v : List PTree) :
    forestPaths (u ++ v) = forestPaths u ++ forestPaths v := by
  induction u with
  | nil => simp [forestPaths]
  | cons c cs ih => simp [forestPaths, ih]

theorem leafPathsF_append (u v : List PTree) :
    leafPathsF (u ++ v) = leafPathsF u ++ leafPathsF v := by
  induction u with
  | nil => simp [leafPathsF]
  | cons c cs ih => simp [leafPathsF, ih]

theorem nodePaths_chainTree (rk sci : Nat → String) :
    ∀ (rest : List Nat) (a : Nat) (q : List Nat),
      q ∈ nodePaths (chainTree rk sci a rest) ↔ q ≠ [] ∧ ∃ w, a :: rest = q ++ w
  | [], a, q => by
    simp only [chainTree, nodePaths, forestPaths, List.map_nil, List.mem_singleton]
    constructor
    · rintro rfl
      exact ⟨by simp, [], rfl⟩
    · rintro ⟨hq, w, hw⟩
      match q, hq with
      | b :: q', _ =>
        rcases List.cons_eq_cons.1 hw.symm with ⟨rfl, h2⟩
        rcases List.append_eq_nil.1 h2 with ⟨rfl, rfl⟩
        rfl
  | b :: rest, a, q => by
    simp only [chainTree, nodePaths, forestPaths, List.append_nil, List.mem_cons,
      List.mem_map]
    constructor
    · rintro (rfl | ⟨q', hq', rfl⟩)
      · exact ⟨by simp, b :: rest, rfl⟩
      · obtain ⟨hne, w, hw⟩ := (nodePaths_chainTree rk sci rest b q').1 hq'
        exact ⟨by simp, w, by rw [List.cons_append, hw]⟩
    · rintro ⟨hq, w, hw⟩
      match q, hq with
      | c :: q', _ =>
        rcases List.cons_eq_cons.1 hw with ⟨rfl, h2⟩
        cases q' with
        | nil => exact Or.inl rfl
        | cons d q'' =>
          exact Or.inr ⟨d :: q'', (nodePaths_chainTree rk sci rest b _).2
            ⟨by simp, w, h2⟩, rfl⟩

theorem leafPathsN_chainTree (rk sci : Nat → String) :
    ∀ (rest : List Nat) (a : Nat),
      leafPathsN (chainTree rk sci a rest) = [a :: rest]
  | [], a => by simp [chainTree, leafPathsN]
  | b :: rest, a => by
    simp [chainTree, leafPathsN, leafPathsF, leafPathsN_chainTree rk sci rest b]

theorem wfN_chainTree (rk sci : Nat → String) :
    ∀ (rest : List Nat) (a : Nat), wfN (chainTree rk sci a rest) = true
  | [], a => by simp [chainTree, wfN, wfF]
  | b :: rest, a => by
    simp [chainTree, wfN, wfF, wfN_chainTree rk sci rest b]

theorem chainTree_name (rk sci : Nat → String) (a : Nat) (rest : List Nat) :
    (chainTree rk sci a rest).name = some a := by
  cases rest <;> simp [chainTree, PTree.name]

theorem properExt_nil (r : List Nat) : ¬ ProperExt r [] := by
  rintro ⟨w, hw, h⟩
  rcases List.append_eq_nil.1 h.symm with ⟨-, rfl⟩
  exact hw rfl

theorem properExt_cons (a : Nat) (r q : List Nat) :
    ProperExt (a :: r) (a :: q) ↔ ProperExt r q := by
  constructor
  · rintro ⟨w, hw, h⟩
    exact ⟨w, hw, by simpa using h⟩
  · rintro ⟨w, hw, h⟩
    exact ⟨w, hw, by simp [h]⟩

theorem properExt_head {a b : Nat} (hne : b ≠ a) (tl rest : List Nat) :
    ¬ ProperExt (b :: tl) (a :: rest) := by
  rintro ⟨w, -, h⟩
  exact hne (List.cons_eq_cons.1 h).1.symm

theorem properExt_irrefl (p : List Nat) : ¬ ProperExt p p := by
  rintro ⟨w, hw, h⟩
  exact hw (by simpa using h.symm)

theorem properExt_singleton {a : Nat} {rest : List Nat} :
    ¬ ProperExt (a :: rest) [a] := by
  rintro ⟨w, hw, h⟩
  rcases List.cons_eq_cons.1 h with ⟨-, h2⟩
  rcases List.append_eq_nil.1 h2.symm with ⟨-, rfl⟩
  exact hw rfl

theorem properExt_of_singleton {a : Nat} {rest : List Nat} :
    ProperExt [a] (a :: rest) ↔ rest ≠ [] := by
  constructor
  · rintro ⟨w, hw, h⟩
    rcases List.cons_eq_cons.1 h with ⟨-, rfl⟩
    simpa using hw
  · intro h
    exact ⟨rest, h, rfl⟩

theorem properExt_trans_append {p q : List Nat} (h : ProperExt p q) (w' : List Nat) :
    ProperExt p (q ++ w') := by
  obtain ⟨w, hw, rfl⟩ := h
  exact ⟨w ++ w', by simp [hw], by simp⟩

theorem leafPathsF_shape :
    ∀ (cs : List PTree), wfF cs = true → ∀ r ∈ leafPathsF cs,
      ∃ b tl, r = b :: tl ∧ ∃ c ∈ cs, c.name = some b := by
  intro cs
  induction cs with
  | nil => intro _ r hr; simp [leafPathsF] at hr
  | cons c cs' ih =>
    intro hwf r hr
    simp only [wfF, Bool.and_eq_true] at hwf
    simp only [leafPathsF, List.mem_append] at hr
    rcases hr with hr | hr
    · cases c with
      | node n rr ss ccs =>
        cases n with
        | none => simp [wfN, PTree.name] at hwf
        | some a =>
          cases ccs with
          | nil =>
            simp only [leafPathsN, List.mem_singleton] at hr
            exact ⟨a, [], hr, .node (some a) rr ss [], by simp, rfl⟩
          | cons d ds =>
            simp only [leafPathsN, List.mem_map] at hr
            obtain ⟨q, -, rfl⟩ := hr
            exact ⟨a, q, rfl, .node (some a) rr ss (d :: ds), by simp, rfl⟩
    · obtain ⟨b, tl, rfl, c', hc', hn⟩ := ih hwf.2 r hr
      exact ⟨b, tl, rfl, c', List.mem_cons_of_mem c hc', hn⟩

theorem forestPaths_shape :
    ∀ (cs : List PTree), wfF cs = true → ∀ q ∈ forestPaths cs,
      ∃ b tl, q = b :: tl ∧ ∃ c ∈ cs, c.name = some b := by
  intro cs
  induction cs with
  | nil => intro _ q hq; simp [forestPaths] at hq
  | cons c cs' ih =>
    intro hwf q hq
    simp only [wfF, Bool.and_eq_true] at hwf
    simp only [forestPaths, List.mem_append] at hq
    rcases hq with hq | hq
    · cases c with
      | node n rr ss ccs =>
        cases n with
        | none => simp [wfN, PTree.name] at hwf
        | some a =>
          simp only [nodePaths, List.mem_cons, List.mem_map] at hq
          rcases hq with rfl | ⟨q', -, rfl⟩
          · exact ⟨a, [], rfl, .node (some a) rr ss ccs, by simp, rfl⟩
          · exact ⟨a, q', rfl, .node (some a) rr ss ccs, by simp, rfl⟩
    · obtain ⟨b, tl, rfl, c', hc', hn⟩ := ih hwf.2 q hq
      exact ⟨b, tl, rfl, c', List.mem_cons_of_mem c hc', hn⟩

theorem insertF_names (rk sci : Nat → String) :
    ∀ (p : List Nat) (cs : List PTree) (d : PTree), d ∈ insertF rk sci cs p →
      (∃ c ∈ cs, d.name = c.name) ∨ ∃ b r', p = b :: r' ∧ d.name = some b := by
  intro p cs
  match p, cs with
  | [], cs =>
    intro d hd
    exact Or.inl ⟨d, by simpa [insertF] using hd, rfl⟩
  | a :: rest, [] =>
    intro d hd
    rw [insertF_nil] at hd
    exact Or.inr ⟨a, rest, rfl, by simp [List.mem_singleton.1 hd, chainTree_name]⟩
  | a :: rest, c :: cs' =>
    intro d hd
    by_cases hname : c.name = some a
    · rw [insertF_cons_eq rk sci hname] at hd
      rcases List.mem_cons.1 hd with rfl | hd
      · cases c with
        | node n rr ss ccs =>
          rw [insertPath_node]
          exact Or.inr ⟨a, rest, rfl, by simpa [PTree.name] using hname⟩
      · exact Or.inl ⟨d, List.mem_cons_of_mem c hd, rfl⟩
    · rw [insertF_cons_ne rk sci hname] at hd
      rcases List.mem_cons.1 hd with rfl | hd
      · exact Or.inl ⟨d, by simp, rfl⟩
      · rcases insertF_names rk sci (a :: rest) cs' d hd with ⟨c', hc', hn⟩ | h
        · exact Or.inl ⟨c', List.mem_cons_of_mem c hc', hn⟩
        · exact Or.inr h

theorem cons_prefix_iff {a : Nat} {rest q : List Nat} :
    (q ≠ [] ∧ ∃ w, a :: rest = q ++ w) ↔
      q = [a] ∨ ∃ q', q = a :: q' ∧ q' ≠ [] ∧ ∃ w, rest = q' ++ w := by
  constructor
  · rintro ⟨hq, w, hw⟩
    match q, hq with
    | b :: q', _ =>
      rcases List.cons_eq_cons.1 hw with ⟨rfl, h2⟩
      cases q' with
      | nil => exact Or.inl rfl
      | cons c q'' => exact Or.inr ⟨c :: q'', rfl, by simp, w, h2⟩
  · rintro (rfl | ⟨q', rfl, hq', w, hw⟩)
    · exact ⟨by simp, rest, rfl⟩
    · exact ⟨by simp, w, by rw [List.cons_append, hw]⟩

theorem wfF_insertF (rk sci : Nat → String) :
    ∀ (p : List Nat) (cs : List PTree), wfF cs = true →
      wfF (insertF rk sci cs p) = true := by
  intro p
  match p with
  | [] => intro cs h; simpa [insertF] using h
  | a :: rest =>
    intro cs
    induction cs with
    | nil =>
      intro _
      rw [insertF_nil]
      simp [wfF, wfN_chainTree]
    | cons c cs' ih =>
      intro hwf
      simp only [wfF, Bool.and_eq_true] at hwf
      obtain ⟨⟨hwn, hdist⟩, hwf'⟩ := hwf
      by_cases hname : c.name = some a
      · rw [insertF_cons_eq rk sci hname]
        cases c with
        | node n rr ss ccs =>
          rw [insertPath_node]
          simp only [wfF, Bool.and_eq_true]
          refine ⟨⟨?_, ?_⟩, hwf'⟩
          · simp only [wfN, Bool.and_eq_true] at hwn ⊢
            exact ⟨hwn.1, wfF_insertF rk sci rest ccs hwn.2⟩
          · simpa [PTree.name] using hdist
      · rw [insertF_cons_ne rk sci hname]
        simp only [wfF, Bool.and_eq_true]
        refine ⟨⟨hwn, ?_⟩, ih hwf'⟩
        simp only [List.all_eq_true, decide_eq_true_eq] at hdist ⊢
        intro d hd
        rcases insertF_names rk sci (a :: rest) cs' d hd with ⟨c', hc', hn⟩ | ⟨b, r', hbr, hn⟩
        · rw [hn]; exact hdist c' hc'
        · rcases List.cons_eq_cons.1 hbr with ⟨rfl, -⟩
          rw [hn]
          intro hcontra
          exact hname hcontra.symm

theorem forestPaths_insertF (rk sci : Nat → String) :
    ∀ (p : List Nat) (cs : List PTree), wfF cs = true →
      ∀ q, q ∈ forestPaths (insertF rk sci cs p) ↔
        q ∈ forestPaths cs ∨ (q ≠ [] ∧ ∃ w, p = q ++ w) := by
  intro p
  match p with
  | [] =>
    intro cs _ q
    simp only [insertF]
    constructor
    · exact Or.inl
    · rintro (h | ⟨hq, w, hw⟩)
      · exact h
      · exact absurd (List.append_eq_nil.1 hw.symm).1 hq
  | a :: rest =>
    intro cs
    induction cs with
    | nil =>
      intro _ q
      rw [insertF_nil]
      simp only [forestPaths, List.append_nil, nodePaths_chainTree,
        List.not_mem_nil, false_or]
    | cons c cs' ih =>
      intro hwf q
      simp only [wfF, Bool.and_eq_true] at hwf
      obtain ⟨⟨hwn, hdist⟩, hwf'⟩ := hwf
      by_cases hname : c.name = some a
      · rw [insertF_cons_eq rk sci hname]
        cases c with
        | node n rr ss ccs =>
          have hn : n = some a := by simpa [PTree.name] using hname
          subst hn
          rw [insertPath_node]
          simp only [wfN, Bool.and_eq_true] at hwn
          simp only [forestPaths, nodePaths, List.mem_append, List.mem_cons,
            List.mem_map]
          constructor
          · rintro ((rfl | ⟨q', hq', rfl⟩) | hq)
            · exact Or.inl (Or.inl (Or.inl rfl))
            · rcases (forestPaths_insertF rk sci rest ccs hwn.2 q').1 hq' with h | ⟨hne, w, hw⟩
              · exact Or.inl (Or.inl (Or.inr ⟨q', h, rfl⟩))
              · exact Or.inr (cons_prefix_iff.2 (Or.inr ⟨q', rfl, hne, w, hw⟩))
            · exact Or.inl (Or.inr hq)
          · rintro (((rfl | ⟨q', hq', rfl⟩) | hq) | hpre)
            · exact Or.inl (Or.inl rfl)
            · exact Or.inl (Or.inr ⟨q', (forestPaths_insertF rk sci rest ccs hwn.2 q').2
                (Or.inl hq'), rfl⟩)
            · exact Or.inr hq
            · rcases cons_prefix_iff.1 hpre with rfl | ⟨q', rfl, hne, w, hw⟩
              · exact Or.inl (Or.inl rfl)
              · exact Or.inl (Or.inr ⟨q', (forestPaths_insertF rk sci rest ccs hwn.2 q').2
                  (Or.inr ⟨hne, w, hw⟩), rfl⟩)
      · rw [insertF_cons_ne rk sci hname]
        simp only [forestPaths, List.mem_append]
        rw [ih hwf' q]
        tauto

theorem properExt_to_singleton {b x : Nat} {tl : List Nat} :
    ¬ ProperExt (b :: tl) [x] := by
  rintro ⟨w, hw, h⟩
  have hlen := congrArg List.length h
  have hwlen : 0 < w.length := List.length_pos.2 hw
  simp only [List.length_cons, List.length_append, List.length_nil] at hlen
  omega

theorem properExt_head2 {x b : Nat} (hne : x ≠ b) (p' tl : List Nat) :
    ¬ ProperExt (x :: p') (b :: tl) := by
  rintro ⟨w, -, h⟩
  exact hne (List.cons_eq_cons.1 h).1.symm

theorem leafPathsN_head {c : PTree} (hw : wfN c = true) {r : List Nat}
    (hr : r ∈ leafPathsN c) : ∃ b tl, r = b :: tl ∧ c.name = some b := by
  cases c with
  | node n rr ss ccs =>
    cases n with
    | none => simp [wfN] at hw
    | some a =>
      cases ccs with
      | nil =>
        simp only [leafPathsN, List.mem_singleton] at hr
        exact ⟨a, [], hr, rfl⟩
      | cons d ds =>
        simp only [leafPathsN, List.mem_map] at hr
        obtain ⟨q, -, rfl⟩ := hr
        exact ⟨a, q, rfl, rfl⟩

theorem nodePaths_head {c : PTree} {q : List Nat}
    (hq : q ∈ nodePaths c) : ∃ b tl, q = b :: tl ∧ c.name = some b := by
  cases c with
  | node n rr ss ccs =>
    cases n with
    | none => simp [nodePaths] at hq
    | some a =>
      simp only [nodePaths, List.mem_cons, List.mem_map] at hq
      rcases hq with rfl | ⟨q', -, rfl⟩
      · exact ⟨a, [], rfl, rfl⟩
      · exact ⟨a, q', rfl, rfl⟩

theorem leafPathsF_insertF (rk sci : Nat → String) :
    ∀ (p : List Nat) (cs : List PTree), wfF cs = true →
      ∀ r, r ∈ leafPathsF (insertF rk sci cs p) ↔
        (r ∈ leafPathsF cs ∧ ¬ ProperExt r p) ∨
          (r = p ∧ p ≠ [] ∧ ¬ ∃ q ∈ forestPaths cs, ProperExt p q) := by
  intro p
  match p with
  | [] =>
    intro cs _ r
    simp only [insertF]
    constructor
    · intro h
      exact Or.inl ⟨h, properExt_nil r⟩
    · rintro (⟨h, -⟩ | ⟨-, h, -⟩)
      · exact h
      · exact absurd rfl h
  | a :: rest =>
    intro cs
    induction cs with
    | nil =>
      intro _ r
      rw [insertF_nil]
      have hLP : r ∈ leafPathsF [chainTree rk sci a rest] ↔ r = a :: rest := by
        simp [leafPathsF, leafPathsN_chainTree]
      rw [hLP]
      constructor
      · rintro rfl
        refine Or.inr ⟨rfl, by simp, ?_⟩
        rintro ⟨q, hq, -⟩
        simp [forestPaths] at hq
      · rintro (⟨h, -⟩ | ⟨rfl, -, -⟩)
        · simp [leafPathsF] at h
        · rfl
    | cons c cs' ih =>
      intro hwf r
      simp only [wfF, Bool.and_eq_true] at hwf
      obtain ⟨⟨hwn, hdist⟩, hwf'⟩ := hwf
      have hdist' : ∀ d ∈ cs', d.name ≠ c.name := by
        simpa [List.all_eq_true] using hdist
      by_cases hname : c.name = some a
      · rw [insertF_cons_eq rk sci hname]
        cases c with
        | node n rr ss ccs =>
          have hn : n = some a := by simpa [PTree.name] using hname
          subst hn
          simp only [wfN, Bool.and_eq_true] at hwn
          -- heads of cs'-paths differ from a
          have hcs'_leaf : ∀ r' ∈ leafPathsF cs', ∃ b tl, r' = b :: tl ∧ b ≠ a := by
            intro r' hr'
            obtain ⟨b, tl, rfl, c', hc', hb⟩ := leafPathsF_shape cs' hwf' r' hr'
            refine ⟨b, tl, rfl, ?_⟩
            intro hba
            exact hdist' c' hc' (by rw [hb, hba]; rfl)
          have hcs'_forest : ∀ q ∈ forestPaths cs', ∃ b tl, q = b :: tl ∧ b ≠ a := by
            intro q hq
            obtain ⟨b, tl, rfl, c', hc', hb⟩ := forestPaths_shape cs' hwf' q hq
            refine ⟨b, tl, rfl, ?_⟩
            intro hba
            exact hdist' c' hc' (by rw [hb, hba]; rfl)
          have hLPleaf : ∀ r₁,
              r₁ ∈ leafPathsF (PTree.node (some a) rr ss [] :: cs') ↔
                r₁ = [a] ∨ r₁ ∈ leafPathsF cs' := by
            intro r₁
            simp only [leafPathsF, leafPathsN, List.mem_append, List.mem_singleton]
          have hFPleaf : ∀ q,
              q ∈ forestPaths (PTree.node (some a) rr ss [] :: cs') ↔
                q = [a] ∨ q ∈ forestPaths cs' := by
            intro q
            simp only [forestPaths, nodePaths, List.map_nil, List.mem_append,
              List.mem_cons, List.not_mem_nil, or_false]
          cases ccs with
          | nil =>
            cases rest with
            | nil =>
              -- inserting [a] onto an existing leaf child named a: no change
              have hstep : insertPath rk sci (PTree.node (some a) rr ss []) [] =
                  PTree.node (some a) rr ss [] := rfl
              rw [hstep]
              constructor
              · intro hr
                rcases (hLPleaf r).1 hr with rfl | hr'
                · exact Or.inl ⟨hr, properExt_irrefl [a]⟩
                · obtain ⟨b, tl, rfl, hba⟩ := hcs'_leaf r hr'
                  exact Or.inl ⟨hr, properExt_to_singleton⟩
              · rintro (⟨hr, -⟩ | ⟨rfl, -, -⟩)
                · exact hr
                · exact (hLPleaf [a]).2 (Or.inl rfl)
            | cons b r2 =>
              -- the leaf child named a grows the fresh chain b :: r2
              rw [insertPath_node, insertF_nil]
              have hLPres : ∀ r₁,
                  r₁ ∈ leafPathsF (PTree.node (some a) rr ss
                      [chainTree rk sci b r2] :: cs') ↔
                    r₁ = a :: b :: r2 ∨ r₁ ∈ leafPathsF cs' := by
                intro r₁
                simp only [leafPathsF, leafPathsN, leafPathsN_chainTree,
                  List.append_nil, List.map_cons, List.map_nil, List.mem_append,
                  List.mem_singleton]
              constructor
              · intro h
                rcases (hLPres r).1 h with rfl | hr
                · refine Or.inr ⟨rfl, by simp, ?_⟩
                  rintro ⟨q, hq, hpe⟩
                  rcases (hFPleaf q).1 hq with rfl | hq'
                  · exact properExt_singleton hpe
                  · obtain ⟨bq, tl, rfl, hba⟩ := hcs'_forest q hq'
                    exact properExt_head2 (fun h => hba h.symm) _ tl hpe
                · obtain ⟨bq, tl, rfl, hba⟩ := hcs'_leaf r hr
                  exact Or.inl ⟨(hLPleaf _).2 (Or.inr hr),
                    properExt_head (fun h => hba h) tl _⟩
              · rintro (⟨hmem, hpe⟩ | ⟨rfl, -, -⟩)
                · rcases (hLPleaf r).1 hmem with rfl | hr
                  · exact absurd (properExt_of_singleton.2 (by simp)) hpe
                  · exact (hLPres r).2 (Or.inr hr)
                · exact (hLPres _).2 (Or.inl rfl)
          | cons d ds =>
            -- the child named a already has children: recurse into them
            rw [insertPath_node]
            have hccs' : insertF rk sci (d :: ds) rest ≠ [] :=
              insertF_ne_nil rk sci rest (d :: ds) (Or.inl (by simp))
            obtain ⟨e, es, hes⟩ := List.exists_cons_of_ne_nil hccs'
            have hrec := leafPathsF_insertF rk sci rest (d :: ds) hwn.2
            have hLPres : ∀ r₁,
                r₁ ∈ leafPathsF (PTree.node (some a) rr ss
                    (insertF rk sci (d :: ds) rest) :: cs') ↔
                  (∃ r', r' ∈ leafPathsF (insertF rk sci (d :: ds) rest) ∧
                      r₁ = a :: r') ∨ r₁ ∈ leafPathsF cs' := by
              intro r₁
              rw [hes]
              simp only [leafPathsF, leafPathsN, List.mem_append, List.mem_map]
              constructor
              · rintro (⟨r', h1, h2⟩ | h)
                · exact Or.inl ⟨r', h1, h2.symm⟩
                · exact Or.inr h
              · rintro (⟨r', h1, h2⟩ | h)
                · exact Or.inl ⟨r', h1, h2.symm⟩
                · exact Or.inr h
            have hLPorig : ∀ r₁,
                r₁ ∈ leafPathsF (PTree.node (some a) rr ss (d :: ds) :: cs') ↔
                  (∃ r₀, r₀ ∈ leafPathsF (d :: ds) ∧ r₁ = a :: r₀) ∨
                    r₁ ∈ leafPathsF cs' := by
              intro r₁
              simp only [leafPathsF, leafPathsN, List.mem_append, List.mem_map]
              constructor
              · rintro (⟨r', h1, h2⟩ | h)
                · exact Or.inl ⟨r', h1, h2.symm⟩
                · exact Or.inr h
              · rintro (⟨r', h1, h2⟩ | h)
                · exact Or.inl ⟨r', h1, h2.symm⟩
                · exact Or.inr h
            have hFPorig : ∀ q,
                q ∈ forestPaths (PTree.node (some a) rr ss (d :: ds) :: cs') ↔
                  q = [a] ∨ (∃ q₀, q₀ ∈ forestPaths (d :: ds) ∧ q = a :: q₀) ∨
                    q ∈ forestPaths cs' := by
              intro q
              simp only [forestPaths, nodePaths, List.mem_append, List.mem_cons,
                List.mem_map]
              constructor
              · rintro ((rfl | ⟨q', h1, h2⟩) | h)
                · exact Or.inl rfl
                · exact Or.inr (Or.inl ⟨q', h1, h2.symm⟩)
                · exact Or.inr (Or.inr h)
              · rintro (rfl | ⟨q', h1, h2⟩ | h)
                · exact Or.inl (Or.inl rfl)
                · exact Or.inl (Or.inr ⟨q', h1, h2.symm⟩)
                · exact Or.inr h
            have hcond :
                (∃ q ∈ forestPaths (PTree.node (some a) rr ss (d :: ds) :: cs'),
                    ProperExt (a :: rest) q) ↔
                  ∃ q₀ ∈ forestPaths (d :: ds), ProperExt rest q₀ := by
              constructor
              · rintro ⟨q, hq, hpe⟩
                rcases (hFPorig q).1 hq with rfl | ⟨q₀, hq₀, rfl⟩ | hq'
                · exact absurd hpe properExt_singleton
                · exact ⟨q₀, hq₀, (properExt_cons a rest q₀).1 hpe⟩
                · obtain ⟨b, tl, rfl, hba⟩ := hcs'_forest q hq'
                  exact absurd hpe (properExt_head2 (fun h => hba h.symm) rest tl)
              · rintro ⟨q₀, hq₀, hpe⟩
                exact ⟨a :: q₀, (hFPorig (a :: q₀)).2 (Or.inr (Or.inl ⟨q₀, hq₀, rfl⟩)),
                  (properExt_cons a rest q₀).2 hpe⟩
            have hFPdd : ∃ q₀, q₀ ∈ forestPaths (d :: ds) ∧ q₀ ≠ [] := by
              cases d with
              | node nd rd sd cds =>
                cases nd with
                | none => simp [wfF, wfN] at hwn
                | some b =>
                  exact ⟨[b], by simp [forestPaths, nodePaths], by simp⟩
            rw [hLPres r]
            constructor
            · rintro (⟨r', hr', rfl⟩ | hr)
              · rcases (hrec r').1 hr' with ⟨hmem, hpe⟩ | ⟨rfl, hne, hnext⟩
                · exact Or.inl ⟨(hLPorig _).2 (Or.inl ⟨r', hmem, rfl⟩),
                    fun h => hpe ((properExt_cons a r' rest).1 h)⟩
                · refine Or.inr ⟨rfl, by simp, ?_⟩
                  intro hq
                  exact hnext (hcond.1 hq)
              · obtain ⟨b, tl, rfl, hba⟩ := hcs'_leaf r hr
                exact Or.inl ⟨(hLPorig _).2 (Or.inr hr),
                  properExt_head (fun h => hba h) tl rest⟩
            · rintro (⟨hmem, hpe⟩ | ⟨rfl, -, hnext⟩)
              · rcases (hLPorig r).1 hmem with ⟨r₀, hr₀, rfl⟩ | hr
                · exact Or.inl ⟨r₀, (hrec r₀).2 (Or.inl ⟨hr₀,
                    fun h => hpe ((properExt_cons a r₀ rest).2 h)⟩), rfl⟩
                · exact Or.inr hr
              · have hrest : rest ≠ [] := by
                  rintro rfl
                  obtain ⟨q₀, hq₀, hq₀ne⟩ := hFPdd
                  exact hnext (hcond.2 ⟨q₀, hq₀, q₀, hq₀ne, rfl⟩)
                exact Or.inl ⟨rest, (hrec rest).2 (Or.inr ⟨rfl, hrest,
                  fun h => hnext (hcond.2 h)⟩), rfl⟩
      · -- the head child is not named `a`: insertion happens further right
        rw [insertF_cons_ne rk sci hname]
        have hwf1 : wfF [c] = true := by simp [wfF, hwn]
        have hchead : ∀ r' ∈ leafPathsN c, ∃ b tl, r' = b :: tl ∧ b ≠ a := by
          intro r' hr'
          obtain ⟨b, tl, rfl, hb⟩ := leafPathsN_head hwn hr'
          exact ⟨b, tl, rfl, fun hba => hname (by rw [hb, hba])⟩
        have hqhead : ∀ q ∈ nodePaths c, ∃ b tl, q = b :: tl ∧ b ≠ a := by
          intro q hq
          obtain ⟨b, tl, rfl, hb⟩ := nodePaths_head hq
          exact ⟨b, tl, rfl, fun hba => hname (by rw [hb, hba])⟩
        simp only [leafPathsF, List.mem_append]
        rw [ih hwf' r]
        simp only [forestPaths, List.mem_append]
        constructor
        · rintro (hr | ⟨hmem, hpe⟩ | ⟨rfl, hne, hnext⟩)
          · obtain ⟨b, tl, rfl, hba⟩ := hchead r hr
            exact Or.inl ⟨Or.inl hr, properExt_head (fun h => hba h) tl rest⟩
          · exact Or.inl ⟨Or.inr hmem, hpe⟩
          · refine Or.inr ⟨rfl, hne, ?_⟩
            rintro ⟨q, hq | hq, hpe⟩
            · obtain ⟨b, tl, rfl, hba⟩ := hqhead q hq
              exact properExt_head2 (fun h => hba h.symm) rest tl hpe
            · exact hnext ⟨q, hq, hpe⟩
        · rintro (⟨hr | hr, hpe⟩ | ⟨rfl, hne, hnext⟩)
          · exact Or.inl hr
          · exact Or.inr (Or.inl ⟨hr, hpe⟩)
          · refine Or.inr (Or.inr ⟨rfl, hne, ?_⟩)
            rintro ⟨q, hq, hpe⟩
            exact hnext ⟨q, Or.inr hq, hpe⟩

theorem foldl_insertF_spec (rk sci : Nat → String) :
    ∀ (ps done : List (List Nat)) (cs : List PTree),
      wfF cs = true →
      (∀ q, q ∈ forestPaths cs ↔ q ≠ [] ∧ ∃ d ∈ done, ∃ w, d = q ++ w) →
      (∀ r, r ∈ leafPathsF cs ↔ r ∈ done ∧ r ≠ [] ∧ ∀ d ∈ done, ¬ ProperExt r d) →
      wfF (ps.foldl (insertF rk sci) cs) = true ∧
        (∀ q, q ∈ forestPaths (ps.foldl (insertF rk sci) cs) ↔
          q ≠ [] ∧ ∃ d ∈ done ++ ps, ∃ w, d = q ++ w) ∧
        (∀ r, r ∈ leafPathsF (ps.foldl (insertF rk sci) cs) ↔
          r ∈ done ++ ps ∧ r ≠ [] ∧ ∀ d ∈ done ++ ps, ¬ ProperExt r d) := by
  intro ps
  induction ps with
  | nil =>
    intro done cs hwf hFP hLP
    simpa using ⟨hwf, hFP, hLP⟩
  | cons p ps' ih =>
    intro done cs hwf hFP hLP
    rw [List.foldl_cons]
    have hwf' := wfF_insertF rk sci p cs hwf
    have hFP' : ∀ q, q ∈ forestPaths (insertF rk sci cs p) ↔
        q ≠ [] ∧ ∃ d ∈ done ++ [p], ∃ w, d = q ++ w := by
      intro q
      rw [forestPaths_insertF rk sci p cs hwf q]
      constructor
      · rintro (hq | ⟨hne, w, hw⟩)
        · obtain ⟨hne, d, hd, w, hw⟩ := (hFP q).1 hq
          exact ⟨hne, d, by simp [hd], w, hw⟩
        · exact ⟨hne, p, by simp, w, hw⟩
      · rintro ⟨hne, d, hd, w, hw⟩
        rcases List.mem_append.1 hd with hd' | hd'
        · exact Or.inl ((hFP q).2 ⟨hne, d, hd', w, hw⟩)
        · rw [List.mem_singleton.1 hd'] at hw
          exact Or.inr ⟨hne, w, hw⟩
    have hLP' : ∀ r, r ∈ leafPathsF (insertF rk sci cs p) ↔
        r ∈ done ++ [p] ∧ r ≠ [] ∧ ∀ d ∈ done ++ [p], ¬ ProperExt r d := by
      intro r
      rw [leafPathsF_insertF rk sci p cs hwf r]
      constructor
      · rintro (⟨hr, hpe⟩ | ⟨rfl, hne, hnext⟩)
        · obtain ⟨hrdone, hne, hall⟩ := (hLP r).1 hr
          refine ⟨by simp [hrdone], hne, ?_⟩
          intro d hd
          rcases List.mem_append.1 hd with hd' | hd'
          · exact hall d hd'
          · rw [List.mem_singleton.1 hd']
            exact hpe
        · refine ⟨by simp, hne, ?_⟩
          intro d hd
          rcases List.mem_append.1 hd with hd' | hd'
          · rintro ⟨w, hwne, rfl⟩
            exact hnext ⟨r ++ w,
              (hFP (r ++ w)).2 ⟨by simp [List.append_eq_nil, hwne], r ++ w, hd', [],
                by simp⟩,
              ⟨w, hwne, rfl⟩⟩
          · rw [List.mem_singleton.1 hd']
            exact properExt_irrefl r
      · rintro ⟨hrmem, hne, hall⟩
        rcases List.mem_append.1 hrmem with hr | hr
        · exact Or.inl ⟨(hLP r).2 ⟨hr, hne, fun d hd => hall d (by simp [hd])⟩,
            hall p (by simp)⟩
        · obtain rfl := List.mem_singleton.1 hr
          refine Or.inr ⟨rfl, hne, ?_⟩
          rintro ⟨q, hq, w, hwne, rfl⟩
          obtain ⟨hqne, d, hd, w', hw'⟩ := (hFP (r ++ w)).1 hq
          refine absurd ?_ (hall d (by simp [hd]))
          exact ⟨w ++ w', by simp [List.append_eq_nil, hwne], by simp [hw']⟩
    have hmain := ih (done ++ [p]) (insertF rk sci cs p) hwf' hFP' hLP'
    simpa using hmain

theorem leafTaxids_root (r s : Option String) (cs : List PTree) :
    leafTaxids (PTree.node none r s cs) = leafTaxidsF cs := by
  cases cs with
  | nil => simp [leafTaxids, leafTaxidsF]
  | cons c cs' => simp [leafTaxids]

mutual
/-- A taxid is a leaf taxid of a well-formed node exactly when some
root-to-leaf path ends in it. -/
theorem leafTaxids_eq_paths : ∀ (c : PTree), wfN c = true → ∀ x,
    (x ∈ leafTaxids c ↔ ∃ r ∈ leafPathsN c, r.getLast? = some x)
  | .node n rr ss cs => by
    intro hw x
    cases n with
    | none => simp [wfN] at hw
    | some a =>
      have hwf : wfF cs = true := by simpa [wfN] using hw
      cases cs with
      | nil =>
        simp only [leafTaxids, leafPathsN, Option.toList_some, List.mem_singleton]
        constructor
        · rintro rfl
          exact ⟨[x], by simp, by simp⟩
        · rintro ⟨r, hr, hlast⟩
          subst hr
          exact (show a = x by simpa using hlast).symm
      | cons c' cs' =>
        simp only [leafTaxids, leafPathsN, List.mem_map]
        rw [leafTaxidsF_eq_paths (c' :: cs') hwf x]
        constructor
        · rintro ⟨r, hr, hlast⟩
          obtain ⟨b, tl, rfl, -, -, -⟩ := leafPathsF_shape (c' :: cs') hwf r hr
          exact ⟨a :: b :: tl, ⟨b :: tl, hr, rfl⟩, by
            rw [List.getLast?_cons_cons]
            exact hlast⟩
        · rintro ⟨r, ⟨r₀, hr₀, rfl⟩, hlast⟩
          obtain ⟨b, tl, rfl, -, -, -⟩ := leafPathsF_shape (c' :: cs') hwf r₀ hr₀
          refine ⟨b :: tl, hr₀, ?_⟩
          rw [List.getLast?_cons_cons] at hlast
          exact hlast
/-- `leafTaxids_eq_paths` over a child list. -/
theorem leafTaxidsF_eq_paths : ∀ (cs : List PTree), wfF cs = true → ∀ x,
    (x ∈ leafTaxidsF cs ↔ ∃ r ∈ leafPathsF cs, r.getLast? = some x)
  | [] => by
    intro _ x
    simp [leafTaxidsF, leafPathsF]
  | c :: cs' => by
    intro hwf x
    simp only [wfF, Bool.and_eq_true] at hwf
    simp only [leafTaxidsF, leafPathsF, List.mem_append]
    rw [leafTaxids_eq_paths c hwf.1.1 x, leafTaxidsF_eq_paths cs' hwf.2 x]
    constructor
    · rintro (⟨r, hr, hlast⟩ | ⟨r, hr, hlast⟩)
      · exact ⟨r, Or.inl hr, hlast⟩
      · exact ⟨r, Or.inr hr, hlast⟩
    · rintro ⟨r, hr | hr, hlast⟩
      · exact Or.inl ⟨r, hr, hlast⟩
      · exact Or.inr ⟨r, hr, hlast⟩
end

theorem get_topology_eq_root (parent : Nat → Option Nat) (rk sci : Nat → String)
    (fuel : Nat) (taxids : List Nat) :
    get_topology parent rk sci fuel taxids =
      PTree.node none none none
        ((taxids.map (fun tx => (get_lineage parent fuel tx).filter
            (fun a => decide (a ∉ commonLineage parent fuel taxids)))).foldl
          (insertF rk sci) []) := by
  have hgen : ∀ (l : List Nat) (cs : List PTree),
      l.foldl
          (fun t tx =>
            insertPath rk sci t ((get_lineage parent fuel tx).filter
              (fun a => decide (a ∉ commonLineage parent fuel taxids))))
          (PTree.node none none none cs) =
        PTree.node none none none
          (l.foldl
            (fun cs2 tx =>
              insertF rk sci cs2 ((get_lineage parent fuel tx).filter
                (fun a => decide (a ∉ commonLineage parent fuel taxids))))
            cs) := by
    intro l
    induction l with
    | nil => intro cs; simp
    | cons t l ih =>
      intro cs
      simp only [List.foldl_cons, insertPath_node]
      exact ih _
  unfold get_topology
  rw [hgen taxids [], List.foldl_map]

theorem mem_commonLineage (parent : Nat → Option Nat) (fuel : Nat) (t : Nat)
    (ts : List Nat) (x : Nat) :
    x ∈ commonLineage parent fuel (t :: ts) ↔
      x ∈ get_lineage parent fuel t ∧ ∀ s ∈ ts, x ∈ get_lineage parent fuel s := by
  have hgen : ∀ (l : List Nat) (acc : List Nat),
      x ∈ l.foldl
          (fun acc s => acc.filter (fun y => decide (y ∈ get_lineage parent fuel s)))
          acc ↔
        x ∈ acc ∧ ∀ s ∈ l, x ∈ get_lineage parent fuel s := by
    intro l
    induction l with
    | nil => intro acc; simp
    | cons s l ih =>
      intro acc
      simp only [List.foldl_cons]
      rw [ih]
      simp only [List.mem_filter, decide_eq_true_eq, List.mem_cons]
      constructor
      · rintro ⟨⟨hacc, hs⟩, hl⟩
        exact ⟨hacc, fun s' hs' => by
          rcases hs' with rfl | hs'
          exacts [hs, hl s' hs']⟩
      · rintro ⟨hacc, hall⟩
        exact ⟨⟨hacc, hall s (Or.inl rfl)⟩, fun s' hs' => hall s' (Or.inr hs')⟩
  simp only [commonLineage]
  exact hgen ts (get_lineage parent fuel t)

theorem sharedRoot_take :
    ∀ (ls lt : List Nat), (∃ u, ls = sharedRoot ls lt ++ u) ∧
      ∃ v, lt = sharedRoot ls lt ++ v
  | [], lt => by simp [sharedRoot]
  | a :: u, [] => by simp [sharedRoot]
  | a :: u, b :: v => by
    by_cases hab : a = b
    · subst hab
      obtain ⟨⟨u', hu'⟩, v', hv'⟩ := sharedRoot_take u v
      have hsr : sharedRoot (a :: u) (a :: v) = a :: sharedRoot u v := by
        simp [sharedRoot]
      refine ⟨⟨u', ?_⟩, v', ?_⟩
      · rw [hsr, List.cons_append, ← hu']
      · rw [hsr, List.cons_append, ← hv']
    · simp [sharedRoot, hab]

theorem laminar_decomp {ls lt : List Nat} (h : laminar ls lt = true) :
    ∃ p u v, ls = p ++ u ∧ lt = p ++ v ∧ (∀ x ∈ u, x ∉ lt) ∧ ∀ y ∈ v, y ∉ ls := by
  have h' := h
  unfold laminar at h'
  rw [Bool.and_eq_true, List.all_eq_true, List.all_eq_true] at h'
  obtain ⟨⟨u, hu⟩, v, hv⟩ := sharedRoot_take ls lt
  set p := sharedRoot ls lt with hp
  have hdu : ls.drop p.length = u := by
    rw [hu]
    exact List.drop_left _ _
  have hdv : lt.drop p.length = v := by
    rw [hv]
    exact List.drop_left _ _
  refine ⟨p, u, v, hu, hv, ?_, ?_⟩
  · intro x hx
    have := h'.1 x (by rw [hdu]; exact hx)
    simpa using this
  · intro y hy
    have := h'.2 y (by rw [hdv]; exact hy)
    simpa using this

theorem lineage_prefix_of_mem {ls lt : List Nat} {t : Nat}
    (hlam : laminar lt ls = true) (hlast : lt.getLast? = some t)
    (hmem : t ∈ ls) : ∃ v, ls = lt ++ v := by
  obtain ⟨p, u, v, hu, hv, hdisju, -⟩ := laminar_decomp hlam
  have htu : t ∉ u := fun htu => hdisju t htu hmem
  have hu' : u = [] := by
    by_contra hune
    have hne : u.getLast? ≠ none := fun h => hune (List.getLast?_eq_none_iff.1 h)
    obtain ⟨z, hz⟩ := Option.ne_none_iff_exists'.1 hne
    obtain ⟨ys, hys⟩ := List.getLast?_eq_some_iff.1 hz
    have hlz : lt.getLast? = some z := by
      rw [hu, hys, ← List.append_assoc]
      exact List.getLast?_concat _
    have hzt : z = t := by
      rw [hlz] at hlast
      exact Option.some.inj hlast
    subst hzt
    exact htu (by rw [hys]; exact List.mem_append.2 (Or.inr (by simp)))
  subst hu'
  rw [List.append_nil] at hu
  exact ⟨v, by rw [hv, ← hu]⟩

theorem get_topology_eq_root_pruned (parent : Nat → Option Nat) (rk sci : Nat → String)
    (fuel : Nat) (taxids : List Nat) :
    get_topology parent rk sci fuel taxids =
      PTree.node none none none
        ((taxids.map (prunedLineage parent fuel taxids)).foldl (insertF rk sci) []) := by
  rw [get_topology_eq_root]
  have hfun : (fun tx => (get_lineage parent fuel tx).filter
      (fun a => decide (a ∉ commonLineage parent fuel taxids))) =
      prunedLineage parent fuel taxids := by
    funext tx
    rfl
  rw [hfun]

theorem filter_getLast (pr : Nat → Bool) {l : List Nat} {x : Nat}
    (hlast : l.getLast? = some x) (hx : pr x = true) :
    (l.filter pr).getLast? = some x := by
  obtain ⟨ys, rfl⟩ := List.getLast?_eq_some_iff.1 hlast
  rw [List.filter_append]
  have hfx : List.filter pr [x] = [x] := by simp [hx]
  rw [hfx, List.getLast?_concat]

theorem exists_other {ts : List Nat} (hnd : ts.Nodup) (hlen : 2 ≤ ts.length) (x : Nat) :
    ∃ s ∈ ts, s ≠ x := by
  cases ts with
  | nil => exact absurd hlen (by decide)
  | cons a ts' =>
    cases ts' with
    | nil =>
      simp only [List.length_cons, List.length_nil] at hlen
      omega
    | cons b ts'' =>
      have hab : a ≠ b := by
        simp only [List.nodup_cons, List.mem_cons] at hnd
        exact fun h => hnd.1 (Or.inl h)
      by_cases hax : a = x
      · subst hax
        exact ⟨b, by simp, fun h => hab h.symm⟩
      · exact ⟨a, by simp, hax⟩

theorem commonLineage_mem_iff {parent : Nat → Option Nat} {fuel : Nat} {taxids : List Nat}
    (hne : taxids ≠ []) (x : Nat) :
    x ∈ commonLineage parent fuel taxids ↔ ∀ t ∈ taxids, x ∈ get_lineage parent fuel t := by
  obtain ⟨t0, ts0, rfl⟩ := List.exists_cons_of_ne_nil hne
  rw [mem_commonLineage]
  constructor
  · rintro ⟨h0, hrest⟩ t ht
    rcases List.mem_cons.1 ht with rfl | ht'
    · exact h0
    · exact hrest t ht'
  · intro hall
    exact ⟨hall t0 (List.mem_cons_self t0 ts0), fun s hs => hall s (List.mem_cons_of_mem _ hs)⟩

theorem prunedLineage_eq_nil {parent : Nat → Option Nat} {fuel : Nat} {taxids : List Nat}
    {t : Nat} (ht : t ∈ taxids)
    (hres : ∀ s ∈ taxids, (get_lineage parent fuel s).getLast? = some s)
    (hlam : ∀ s ∈ taxids, ∀ u ∈ taxids,
      laminar (get_lineage parent fuel s) (get_lineage parent fuel u) = true)
    (htc : t ∈ commonLineage parent fuel taxids) :
    prunedLineage parent fuel taxids t = [] := by
  have hne : taxids ≠ [] := List.ne_nil_of_mem ht
  unfold prunedLineage
  rw [List.filter_eq_nil_iff]
  intro y hy
  simp only [decide_eq_true_eq, not_not]
  rw [commonLineage_mem_iff hne y]
  intro s hs
  obtain ⟨v, hv⟩ := lineage_prefix_of_mem (hlam t ht s hs) (hres t ht)
    ((commonLineage_mem_iff hne t).1 htc s hs)
  rw [hv]
  exact List.mem_append.2 (Or.inl hy)

theorem prunedLineage_getLast {parent : Nat → Option Nat} {fuel : Nat} {taxids : List Nat}
    {t : Nat} (hres : (get_lineage parent fuel t).getLast? = some t)
    (htc : t ∉ commonLineage parent fuel taxids) :
    (prunedLineage parent fuel taxids t).getLast? = some t := by
  unfold prunedLineage
  exact filter_getLast _ hres (by simpa using htc)

theorem prunedLineage_properExt {parent : Nat → Option Nat} {fuel : Nat} {taxids : List Nat}
    {s t : Nat} (hs : s ∈ taxids) (ht : t ∈ taxids)
    (hres : ∀ u ∈ taxids, (get_lineage parent fuel u).getLast? = some u)
    (hlnd : ∀ u ∈ taxids, (get_lineage parent fuel u).Nodup)
    (hlam : ∀ u ∈ taxids, ∀ w ∈ taxids,
      laminar (get_lineage parent fuel u) (get_lineage parent fuel w) = true)
    (hts : t ≠ s) (hmem : t ∈ get_lineage parent fuel s) :
    ProperExt (prunedLineage parent fuel taxids t) (prunedLineage parent fuel taxids s) := by
  obtain ⟨v, hv⟩ := lineage_prefix_of_mem (hlam t ht s hs) (hres t ht) hmem
  have hvne : v ≠ [] := by
    rintro rfl
    rw [List.append_nil] at hv
    have h1 := hres s hs
    rw [hv, hres t ht] at h1
    exact hts (Option.some.inj h1)
  have hlastv : v.getLast? = some s := by
    obtain ⟨z, hzv⟩ : ∃ z, v.getLast? = some z := by
      cases hzv : v.getLast? with
      | none => exact absurd (List.getLast?_eq_none_iff.1 hzv) hvne
      | some z => exact ⟨z, rfl⟩
    have h1 := hres s hs
    rw [hv, List.getLast?_append, hzv] at h1
    have h2 : (some z).or (get_lineage parent fuel t).getLast? = some z := rfl
    rw [h2] at h1
    rw [hzv]
    exact h1
  have hsv : s ∈ v := List.mem_of_getLast?_eq_some hlastv
  have hsnc : s ∉ commonLineage parent fuel taxids := by
    intro hsc
    have hsLt : s ∈ get_lineage parent fuel t :=
      (commonLineage_mem_iff (List.ne_nil_of_mem hs) s).1 hsc t ht
    have hnodups := hlnd s hs
    rw [hv, List.nodup_append] at hnodups
    exact hnodups.2.2 hsLt hsv
  refine ⟨v.filter (fun a => decide (a ∉ commonLineage parent fuel taxids)), ?_, ?_⟩
  · intro hnil
    have hmemf : s ∈ v.filter (fun a => decide (a ∉ commonLineage parent fuel taxids)) :=
      List.mem_filter.2 ⟨hsv, by simpa using hsnc⟩
    rw [hnil] at hmemf
    simp at hmemf
  · unfold prunedLineage
    rw [hv, List.filter_append]

theorem properExt_prunedLineage {parent : Nat → Option Nat} {fuel : Nat} {taxids : List Nat}
    {s t : Nat} (ht : t ∈ taxids)
    (hres : ∀ u ∈ taxids, (get_lineage parent fuel u).getLast? = some u)
    (htc : t ∉ commonLineage parent fuel taxids)
    (hpe : ProperExt (prunedLineage parent fuel taxids t)
      (prunedLineage parent fuel taxids s)) :
    t ≠ s ∧ t ∈ get_lineage parent fuel s := by
  obtain ⟨w, hwne, hw⟩ := hpe
  have htPt : t ∈ prunedLineage parent fuel taxids t :=
    List.mem_of_getLast?_eq_some (prunedLineage_getLast (hres t ht) htc)
  have htPs : t ∈ prunedLineage parent fuel taxids s := by
    rw [hw]
    exact List.mem_append.2 (Or.inl htPt)
  have htLs : t ∈ get_lineage parent fuel s := by
    unfold prunedLineage at htPs
    exact (List.mem_filter.1 htPs).1
  refine ⟨?_, htLs⟩
  rintro rfl
  have hlen := congrArg List.length hw
  rw [List.length_append] at hlen
  have hw0 : w.length = 0 := by omega
  exact hwne (List.length_eq_zero.1 hw0)

/-- C2 (amended): for every list of at least two distinct input taxids, each fully
resolvable (its lineage walk ends in the taxid itself and repeats no taxid,
and any two input lineages are laminar, as walks in one tree-shaped parent
map are), `get_topology` returns a tree whose leaf taxids are exactly the
input taxids minus any taxid that is a strict ancestor of another input
taxid (a member of another input's lineage). The claim's parenthetical is
wrong: a strict-ancestor input need not become an internal node — an input
lying in every other input's lineage belongs to the common lineage and is
pruned from the tree entirely. -/
theorem leaf_taxids_exactly_non_ancestor_inputs (parent : Nat → Option Nat)
    (rk sci : Nat → String) (fuel : Nat) (taxids : List Nat)
    (hnd : taxids.Nodup) (hlen : 2 ≤ taxids.length)
    (hres : ∀ t ∈ taxids, (get_lineage parent fuel t).getLast? = some t)
    (hlnd : ∀ t ∈ taxids, (get_lineage parent fuel t).Nodup)
    (hlam : ∀ s ∈ taxids, ∀ t ∈ taxids,
      laminar (get_lineage parent fuel s) (get_lineage parent fuel t) = true) :
    (∀ x, x ∈ leafTaxids (get_topology parent rk sci fuel taxids) ↔
        x ∈ taxids ∧ ¬ ∃ s ∈ taxids, x ≠ s ∧ x ∈ get_lineage parent fuel s) ∧
      ∀ t ∈ taxids, (∀ s ∈ taxids, t ∈ get_lineage parent fuel s) →
        t ∉ treeTaxids (get_topology parent rk sci fuel taxids) := by
  have hne : taxids ≠ [] := by
    intro h
    rw [h] at hlen
    exact absurd hlen (by decide)
  have hroot := get_topology_eq_root_pruned parent rk sci fuel taxids
  obtain ⟨hwfCS, hFPCS, hLPCS⟩ :=
    foldl_insertF_spec rk sci (taxids.map (prunedLineage parent fuel taxids)) [] []
      (by rfl)
      (by intro q; simp [forestPaths])
      (by intro r; simp [leafPathsF])
  simp only [List.nil_append] at hFPCS hLPCS
  constructor
  · intro x
    rw [hroot, leafTaxids_root, leafTaxidsF_eq_paths _ hwfCS x]
    constructor
    · rintro ⟨r, hr, hlast⟩
      obtain ⟨hrmem, hrne, hall⟩ := (hLPCS r).1 hr
      obtain ⟨t, ht, rfl⟩ := List.mem_map.1 hrmem
      have htnc : t ∉ commonLineage parent fuel taxids := by
        intro htc
        exact hrne (prunedLineage_eq_nil ht hres hlam htc)
      have hxt : x = t := by
        have h1 := prunedLineage_getLast (hres t ht) htnc
        rw [hlast] at h1
        exact Option.some.inj h1
      subst hxt
      refine ⟨ht, ?_⟩
      rintro ⟨s, hs, hxs, hxLs⟩
      exact hall (prunedLineage parent fuel taxids s) (List.mem_map_of_mem _ hs)
        (prunedLineage_properExt hs ht hres hlnd hlam hxs hxLs)
    · rintro ⟨hx, hnoanc⟩
      have hxnc : x ∉ commonLineage parent fuel taxids := by
        intro hxc
        obtain ⟨s, hs, hsx⟩ := exists_other hnd hlen x
        exact hnoanc ⟨s, hs, fun h => hsx h.symm,
          (commonLineage_mem_iff hne x).1 hxc s hs⟩
      have hlastx := prunedLineage_getLast (hres x hx) hxnc
      refine ⟨prunedLineage parent fuel taxids x, ?_, hlastx⟩
      refine (hLPCS _).2 ⟨List.mem_map_of_mem _ hx, ?_, ?_⟩
      · intro hnil
        rw [hnil] at hlastx
        simp at hlastx
      · intro d hd
        obtain ⟨s, hs, rfl⟩ := List.mem_map.1 hd
        intro hpe
        obtain ⟨hxs, hxLs⟩ := properExt_prunedLineage hx hres hxnc hpe
        exact hnoanc ⟨s, hs, hxs, hxLs⟩
  · intro t ht hall
    have htc : t ∈ commonLineage parent fuel taxids :=
      (commonLineage_mem_iff hne t).2 hall
    unfold get_topology
    exact not_mem_treeTaxids_foldl rk sci t _ htc _ taxids _
      (by simp [treeTaxids, treeTaxidsF])

/-- C2 witness: taxonomy 1 → 2 → 3, inputs `[2, 3]` (two distinct resolvable
taxids): the leaf taxids of the built tree are exactly the inputs minus
strict ancestors of other inputs, and the everywhere-ancestral input 2 is
absent from the tree. -/
theorem leaf_taxids_exactly_non_ancestor_inputs_witness :
    (∀ x, x ∈ leafTaxids (get_topology exParent exRank exSci 10 [2, 3]) ↔
        x ∈ [2, 3] ∧ ¬ ∃ s ∈ [2, 3], x ≠ s ∧ x ∈ get_lineage exParent 10 s) ∧
      ∀ t ∈ [2, 3], (∀ s ∈ [2, 3], t ∈ get_lineage exParent 10 s) →
        t ∉ treeTaxids (get_topology exParent exRank exSci 10 [2, 3]) :=
  leaf_taxids_exactly_non_ancestor_inputs exParent exRank exSci 10 [2, 3]
    (by decide) (by decide) (by decide) (by decide) (by decide)

/-! ## Threshold lemmas -/

theorem mem_insertDesc (x v : ℚ) : ∀ (l : List ℚ), x ∈ insertDesc v l → x = v ∨ x ∈ l
  | [] => by simp [insertDesc]
  | w :: ws => by
    simp only [insertDesc]
    split
    · intro h
      simpa using h
    · intro h
      rcases List.mem_cons.1 h with rfl | h
      · exact Or.inr (by simp)
      · rcases mem_insertDesc x v ws h with h | h
        · exact Or.inl h
        · exact Or.inr (List.mem_cons_of_mem _ h)

theorem pairwise_insertDesc (v : ℚ) :
    ∀ (l : List ℚ), l.Pairwise (· ≥ ·) → (insertDesc v l).Pairwise (· ≥ ·)
  | [] => by simp [insertDesc]
  | w :: ws => by
    intro h
    have h1 := (List.pairwise_cons.1 h).1
    have h2 := (List.pairwise_cons.1 h).2
    simp only [insertDesc]
    split
    · refine List.Pairwise.cons ?_ h
      intro x hx
      rcases List.mem_cons.1 hx with rfl | hx
      · exact le_of_lt ‹x < v›
      · exact le_trans (h1 x hx) (le_of_lt ‹w < v›)
    · refine List.Pairwise.cons ?_ (pairwise_insertDesc v ws h2)
      intro x hx
      rcases mem_insertDesc x v ws hx with rfl | hx
      · exact not_lt.1 ‹¬ w < x›
      · exact h1 x hx

theorem pairwise_sortDesc (l : List ℚ) : (sortDesc l).Pairwise (· ≥ ·) := by
  induction l with
  | nil => simp [sortDesc]
  | cons v vs ih => exact pairwise_insertDesc v _ ih

theorem thresh_step_snd (total : ℚ) (st : ℚ × List ℚ) (v : ℚ) :
    (thresh_step total st v).2 = st.2 ++ [v] ∨ (thresh_step total st v).2 = st.2 := by
  simp only [thresh_step]
  split <;> simp

theorem thresh_step_length (total : ℚ) (st : ℚ × List ℚ) (v : ℚ) :
    (thresh_step total st v).2.length ≤ st.2.length + 1 := by
  rcases thresh_step_snd total st v with h | h <;> simp [h]

theorem thresh_loop_sublist (total : ℚ) :
    ∀ (vs : List ℚ) (st : ℚ × List ℚ),
      ∃ s, thresh_loop total vs st = st.2 ++ s ∧ s.Sublist vs
  | [], st => ⟨[], by simp [thresh_loop]⟩
  | v :: vs, st => by
    simp only [thresh_loop]
    split
    · rcases thresh_step_snd total st v with h | h
      · exact ⟨[v], by rw [h], by simp⟩
      · exact ⟨[], by rw [h, List.append_nil], List.nil_sublist _⟩
    · obtain ⟨s, hs, hsub⟩ := thresh_loop_sublist total vs (thresh_step total st v)
      rcases thresh_step_snd total st v with h | h
      · refine ⟨v :: s, ?_, List.Sublist.cons₂ v hsub⟩
        rw [hs, h, List.append_assoc]
        rfl
      · exact ⟨s, by rw [hs, h], List.Sublist.cons v hsub⟩

theorem thresh_loop_length (total : ℚ) :
    ∀ (vs : List ℚ) (st : ℚ × List ℚ),
      st.2.length ≤ 6 → (thresh_loop total vs st).length ≤ 7
  | [], st => by
    intro h
    simpa [thresh_loop] using le_trans h (by norm_num)
  | v :: vs, st => by
    intro h
    have hstep := thresh_step_length total st v
    simp only [thresh_loop]
    split
    · omega
    · exact thresh_loop_length total vs (thresh_step total st v) (by omega)

/-- C6: `get_threshold_indices` returns at most 7 values, and they are
non-increasing (sorted descending, ties allowed): each appended threshold
is the value of the current iteration over the descending-sorted input, so
the result is a sublist of a descending list, and the loop stops once 7
thresholds are collected. -/
theorem thresholds_le_seven_and_descending (data_values : List ℚ) :
    (get_threshold_indices data_values).length ≤ 7 ∧
      (get_threshold_indices data_values).Pairwise (· ≥ ·) := by
  constructor
  · exact thresh_loop_length _ _ _ (by simp)
  · obtain ⟨s, hs, hsub⟩ :=
      thresh_loop_sublist (sortDesc data_values).sum (sortDesc data_values) (0, [])
    unfold get_threshold_indices
    rw [hs, List.nil_append]
    exact (pairwise_sortDesc data_values).sublist hsub

/-- C7 counterexample: refutes the claim that a tie can make one loop iteration
append more than one threshold: the loop body (lines 156–159) guards the
append with a single non-looping `if`, so no state and no input value can
ever grow the threshold list by 2 or more in one step. -/
theorem thresh_step_no_double_append :
    ¬ ∃ (total : ℚ) (st : ℚ × List ℚ) (v : ℚ),
        st.2.length + 2 ≤ (thresh_step total st v).2.length := by
  rintro ⟨total, st, v, h⟩
  have := thresh_step_length total st v
  omega

/-- C7 (amended): what tie-handling actually does: each iteration appends at most one
threshold, but an equal value reappearing in later iterations can satisfy
the next coverage checks, so the same numeric value may occur several times
in the result — e.g. three equal values yield that value three times, one
per iteration. -/
theorem thresh_ties_repeat_across_steps :
    (∀ (total : ℚ) (st : ℚ × List ℚ) (v : ℚ),
        (thresh_step total st v).2.length ≤ st.2.length + 1) ∧
      get_threshold_indices [1, 1, 1] = [1, 1, 1] := by
  constructor
  · exact thresh_step_length
  · norm_num [get_threshold_indices, sortDesc, insertDesc, thresh_loop, thresh_step]

/-! ## Input-parser theorems -/

/-- C9 counterexample: refutes the claim that the third field is optional and that
short lines warn: a well-formed two-field line `5<TAB>3` in count mode
fails the `len(parts) >= 3` guard (line 136) and is dropped silently — no
record is stored and no warning is printed. -/
theorem read_data_two_field_line_cex :
    read_data Mode.count [[intCell 5, floatCell 3]] = ([], 0) := by
  norm_num [read_data, read_data_line, intCell, floatCell]

/-- C9 (amended): what `read_data` actually does with one line: fewer than 3 fields is
skipped silently with no warning (even a well-formed `taxid<TAB>count`
line); 3 or more fields with a failing `int`/`float` parse is skipped with
one warning; 3 or more well-parsed fields stores the record (count mode:
`value = count`; ratio mode: `value = count / whole_count`, 0 for a zero
denominator). Parsing is total: every line leaves the fold in a defined
state and processing continues. -/
theorem read_data_line_spec (info_type : Mode) (data : List (Int × Obs)) (w : Nat)
    (p0 p1 p2 : Cell) (rest : List Cell) (cs : List Cell) :
    (cs.length < 3 → read_data_line info_type (data, w) cs = (data, w)) ∧
      (p0.asInt = none ∨ p1.asFloat = none ∨ p2.asFloat = none →
        read_data_line info_type (data, w) (p0 :: p1 :: p2 :: rest) = (data, w + 1)) ∧
      (∀ (t : Int) (c wc : ℚ),
        p0.asInt = some t → p1.asFloat = some c → p2.asFloat = some wc →
          read_data_line Mode.count (data, w) (p0 :: p1 :: p2 :: rest) =
              (upsert data t ⟨c, c, none⟩, w) ∧
            read_data_line Mode.ratio (data, w) (p0 :: p1 :: p2 :: rest) =
              (upsert data t ⟨if wc ≠ 0 then c / wc else 0, c, some wc⟩, w)) := by
  refine ⟨?_, ?_, ?_⟩
  · intro h
    match cs, h with
    | [], _ => rfl
    | [_], _ => rfl
    | [_, _], _ => rfl
    | _ :: _ :: _ :: _, h => simp only [List.length_cons] at h; omega
  · intro h
    cases hp0 : p0.asInt with
    | none => simp [read_data_line, hp0]
    | some t =>
      cases hp1 : p1.asFloat with
      | none => simp [read_data_line, hp0, hp1]
      | some c =>
        cases hp2 : p2.asFloat with
        | none => simp [read_data_line, hp0, hp1, hp2]
        | some wc => simp_all
  · intro t c wc h0 h1 h2
    exact ⟨by simp [read_data_line, h0, h1, h2], by simp [read_data_line, h0, h1, h2]⟩

theorem mem_upsert {k : Int} {o : Obs} :
    ∀ {data : List (Int × Obs)} {k' : Int} {o' : Obs},
      (k, o) ∈ upsert data k' o' → (k, o) ∈ data ∨ (k = k' ∧ o = o') := by
  intro data
  induction data with
  | nil =>
    intro k' o' h
    simp only [upsert, List.mem_singleton] at h
    exact Or.inr (by simpa [Prod.ext_iff] using h)
  | cons p rest ih =>
    intro k' o' h
    obtain ⟨pk, po⟩ := p
    simp only [upsert] at h
    split at h
    · rcases List.mem_cons.1 h with h | h
      · exact Or.inr (by simpa [Prod.ext_iff] using h)
      · exact Or.inl (List.mem_cons_of_mem _ h)
    · rcases List.mem_cons.1 h with h | h
      · exact Or.inl (by simp [h])
      · rcases ih h with h | h
        · exact Or.inl (List.mem_cons_of_mem _ h)
        · exact Or.inr h

/-- Every record `read_data` stores in ratio mode carries
`value = count / whole_count` (0 for a zero denominator): this is the
`leafRatioOk` shape that `ratio_cumulative_value_division` assumes of the
leaves the pipeline decorates from this data. -/
theorem read_data_ratio_entries_consistent (lines : List (List Cell)) :
    ∀ (k : Int) (o : Obs), (k, o) ∈ (read_data Mode.ratio lines).1 →
      ∃ wc : ℚ, o.whole_count = some wc ∧
        o.value = if wc ≠ 0 then o.count / wc else 0 := by
  suffices h :
      ∀ (ls : List (List Cell)) (st : List (Int × Obs) × Nat),
        (∀ (k : Int) (o : Obs), (k, o) ∈ st.1 →
          ∃ wc : ℚ, o.whole_count = some wc ∧
            o.value = if wc ≠ 0 then o.count / wc else 0) →
        ∀ (k : Int) (o : Obs), (k, o) ∈ (ls.foldl (read_data_line Mode.ratio) st).1 →
          ∃ wc : ℚ, o.whole_count = some wc ∧
            o.value = if wc ≠ 0 then o.count / wc else 0 by
    intro k o hmem
    exact h lines ([], 0) (by simp) k o hmem
  intro ls
  induction ls with
  | nil => intro st hst k o hmem; exact hst k o hmem
  | cons line rest ih =>
    intro st hst k o hmem
    refine ih (read_data_line Mode.ratio st line) ?_ k o hmem
    intro k1 o1 h1
    match line with
    | [] => exact hst k1 o1 h1
    | [_] => exact hst k1 o1 h1
    | [_, _] => exact hst k1 o1 h1
    | p0 :: p1 :: p2 :: tail =>
      cases hp0 : p0.asInt with
      | none => simp only [read_data_line, hp0] at h1; exact hst k1 o1 h1
      | some t =>
        cases hp1 : p1.asFloat with
        | none => simp only [read_data_line, hp0, hp1] at h1; exact hst k1 o1 h1
        | some c =>
          cases hp2 : p2.asFloat with
          | none => simp only [read_data_line, hp0, hp1, hp2] at h1; exact hst k1 o1 h1
          | some wc =>
            simp only [read_data_line, hp0, hp1, hp2] at h1
            rcases mem_upsert h1 with h1 | ⟨_, rfl⟩
            · exact hst k1 o1 h1
            · exact ⟨wc, rfl, rfl⟩

/-! ## Aggregation lemmas -/

mutual
/-- Structural induction over `VTree` with the inductive hypothesis for
every member of the child list. -/
theorem VTree.rec_mem (P : VTree → Prop)
    (h : ∀ c v w cc cv cw cs, (∀ x ∈ cs, P x) → P (.node c v w cc cv cw cs)) :
    ∀ t, P t
  | .node c v w cc cv cw cs => h c v w cc cv cw cs (VTree.rec_mem_list P h cs)
/-- `VTree.rec_mem` for every member of a list. -/
theorem VTree.rec_mem_list (P : VTree → Prop)
    (h : ∀ c v w cc cv cw cs, (∀ x ∈ cs, P x) → P (.node c v w cc cv cw cs)) :
    ∀ (cs : List VTree), ∀ x ∈ cs, P x
  | c :: cs => by
    intro x hx
    rcases List.mem_cons.1 hx with rfl | hx
    · exact VTree.rec_mem P h x
    · exact VTree.rec_mem_list P h cs x hx
  | [] => by
    intro x hx
    exact absurd hx (List.not_mem_nil x)
end

theorem allNodesF_iff (p : VTree → Bool) :
    ∀ (cs : List VTree), allNodesF p cs = true ↔ ∀ x ∈ cs, allNodes p x = true := by
  intro cs
  induction cs with
  | nil => simp [allNodesF]
  | cons c cs ih => simp [allNodesF, ih]

theorem fresh_node (c v w : ℚ) (cc cv cw : Option ℚ) (cs : List VTree) :
    fresh (.node c v w cc cv cw cs) = true ↔
      cc = none ∧ cv = none ∧ cw = none ∧ ∀ x ∈ cs, fresh x = true := by
  simp [fresh, allNodes, allNodesF_iff, VTree.cumulative_count, VTree.cumulative_value,
    VTree.cumulative_whole_count, Option.isNone_iff_eq_none, and_assoc]

theorem acc_children_count_cons (ch : VTree) (chs : List VTree) (tc tv : ℚ) :
    accumulate_children_count (ch :: chs) tc tv =
      ((accumulate_values_count ch).1 ::
          (accumulate_children_count chs (tc + (accumulate_values_count ch).2.1)
            (tv + (accumulate_values_count ch).2.2)).1,
        (accumulate_children_count chs (tc + (accumulate_values_count ch).2.1)
          (tv + (accumulate_values_count ch).2.2)).2) := by
  simp [accumulate_children_count]

theorem acc_count_node_cons (c v w : ℚ) (cc cv : Option ℚ) (cw : Option ℚ)
    (ch : VTree) (chs : List VTree) :
    accumulate_values_count (.node c v w cc cv cw (ch :: chs)) =
      (.node c v w (some (accumulate_children_count (ch :: chs) c v).2.1)
          (some (accumulate_children_count (ch :: chs) c v).2.2) cw
          (accumulate_children_count (ch :: chs) c v).1,
        (accumulate_children_count (ch :: chs) c v).2) := by
  simp [accumulate_values_count]

theorem acc_children_ratio_cons (ch : VTree) (chs : List VTree) (tc tw : ℚ) :
    accumulate_children_ratio (ch :: chs) tc tw =
      ((accumulate_values_ratio ch).1 ::
          (accumulate_children_ratio chs (tc + (accumulate_values_ratio ch).2.1)
            (tw + (accumulate_values_ratio ch).2.2.1)).1,
        (accumulate_children_ratio chs (tc + (accumulate_values_ratio ch).2.1)
          (tw + (accumulate_values_ratio ch).2.2.1)).2) := by
  simp [accumulate_children_ratio]

theorem acc_ratio_node_cons (c v w : ℚ) (cc cv cw : Option ℚ)
    (ch : VTree) (chs : List VTree) :
    accumulate_values_ratio (.node c v w cc cv cw (ch :: chs)) =
      (.node c v w (some (accumulate_children_ratio (ch :: chs) c w).2.1)
          (some (if (accumulate_children_ratio (ch :: chs) c w).2.2 ≠ 0 then
              (accumulate_children_ratio (ch :: chs) c w).2.1 /
                (accumulate_children_ratio (ch :: chs) c w).2.2
            else 0))
          (some (accumulate_children_ratio (ch :: chs) c w).2.2)
          (accumulate_children_ratio (ch :: chs) c w).1,
        (accumulate_children_ratio (ch :: chs) c w).2.1,
        (accumulate_children_ratio (ch :: chs) c w).2.2,
        (if (accumulate_children_ratio (ch :: chs) c w).2.2 ≠ 0 then
            (accumulate_children_ratio (ch :: chs) c w).2.1 /
              (accumulate_children_ratio (ch :: chs) c w).2.2
          else 0)) := by
  simp [accumulate_values_ratio]

theorem acc_children_count_spec :
    ∀ (cs : List VTree),
      (∀ x ∈ cs, fresh x = true →
        (accumulate_values_count x).2.1 = cum_count (accumulate_values_count x).1 ∧
          (accumulate_values_count x).2.2 = cum_value (accumulate_values_count x).1 ∧
          allNodes ccInv (accumulate_values_count x).1 = true ∧
          allNodes cvInv (accumulate_values_count x).1 = true) →
      (∀ x ∈ cs, fresh x = true) →
      ∀ (tc tv : ℚ),
        (accumulate_children_count cs tc tv).2.1 =
            tc + (((accumulate_children_count cs tc tv).1).map cum_count).sum ∧
          (accumulate_children_count cs tc tv).2.2 =
            tv + (((accumulate_children_count cs tc tv).1).map cum_value).sum ∧
          allNodesF ccInv (accumulate_children_count cs tc tv).1 = true ∧
          allNodesF cvInv (accumulate_children_count cs tc tv).1 = true := by
  intro cs
  induction cs with
  | nil =>
    intro _ _ tc tv
    simp [accumulate_children_count, allNodesF]
  | cons ch chs ih =>
    intro hspec hfresh tc tv
    obtain ⟨hc1, hc2, hc3, hc4⟩ :=
      hspec ch (List.mem_cons_self ch chs) (hfresh ch (List.mem_cons_self ch chs))
    obtain ⟨ih1, ih2, ih3, ih4⟩ :=
      ih (fun x hx => hspec x (List.mem_cons_of_mem ch hx))
        (fun x hx => hfresh x (List.mem_cons_of_mem ch hx))
        (tc + (accumulate_values_count ch).2.1) (tv + (accumulate_values_count ch).2.2)
    rw [acc_children_count_cons]
    refine ⟨?_, ?_, ?_, ?_⟩
    · simp only [List.map_cons, List.sum_cons]
      rw [ih1, hc1]
      ring
    · simp only [List.map_cons, List.sum_cons]
      rw [ih2, hc2]
      ring
    · simp [allNodesF, hc3, ih3]
    · simp [allNodesF, hc4, ih4]

theorem acc_count_spec :
    ∀ t : VTree, fresh t = true →
      (accumulate_values_count t).2.1 = cum_count (accumulate_values_count t).1 ∧
        (accumulate_values_count t).2.2 = cum_value (accumulate_values_count t).1 ∧
        allNodes ccInv (accumulate_values_count t).1 = true ∧
        allNodes cvInv (accumulate_values_count t).1 = true := by
  refine VTree.rec_mem _ ?_
  intro c v w cc cv cw cs ih hf
  obtain ⟨hcc, hcv, hcw, hchildren⟩ := (fresh_node c v w cc cv cw cs).1 hf
  cases cs with
  | nil =>
    subst hcc hcv hcw
    refine ⟨?_, ?_, ?_, ?_⟩ <;>
      simp [accumulate_values_count, cum_count, cum_value, ccInv, cvInv, allNodes, allNodesF,
        VTree.cumulative_count, VTree.cumulative_value, VTree.count, VTree.value,
        VTree.children]
  | cons ch chs =>
    obtain ⟨h1, h2, h3, h4⟩ := acc_children_count_spec (ch :: chs) ih hchildren c v
    rw [acc_count_node_cons]
    refine ⟨?_, ?_, ?_, ?_⟩
    · simp [cum_count, VTree.cumulative_count]
    · simp [cum_value, VTree.cumulative_value]
    · simp only [allNodes, Bool.and_eq_true]
      refine ⟨?_, h3⟩
      simp only [ccInv, cum_count, VTree.cumulative_count, VTree.count, VTree.children,
        Option.getD_some, decide_eq_true_eq]
      exact h1
    · simp only [allNodes, Bool.and_eq_true]
      refine ⟨?_, h4⟩
      simp only [cvInv, cum_value, VTree.cumulative_value, VTree.value, VTree.children,
        Option.getD_some, decide_eq_true_eq]
      exact h2

theorem allNodes_node_iff (p : VTree → Bool) (c v w : ℚ) (cc cv cw : Option ℚ)
    (cs : List VTree) :
    allNodes p (.node c v w cc cv cw cs) = true ↔
      p (.node c v w cc cv cw cs) = true ∧ ∀ x ∈ cs, allNodes p x = true := by
  simp [allNodes, allNodesF_iff]

theorem acc_children_ratio_spec :
    ∀ (cs : List VTree),
      (∀ x ∈ cs, fresh x = true →
        (accumulate_values_ratio x).2.1 = cum_count (accumulate_values_ratio x).1 ∧
          (accumulate_values_ratio x).2.2.1 = cum_whole (accumulate_values_ratio x).1 ∧
          allNodes ccInv (accumulate_values_ratio x).1 = true ∧
          (allNodes leafRatioOk x = true →
            (accumulate_values_ratio x).2.2.2 = cum_value (accumulate_values_ratio x).1 ∧
              allNodes ratioInv (accumulate_values_ratio x).1 = true)) →
      (∀ x ∈ cs, fresh x = true) →
      ∀ (tc tw : ℚ),
        (accumulate_children_ratio cs tc tw).2.1 =
            tc + (((accumulate_children_ratio cs tc tw).1).map cum_count).sum ∧
          (accumulate_children_ratio cs tc tw).2.2 =
            tw + (((accumulate_children_ratio cs tc tw).1).map cum_whole).sum ∧
          allNodesF ccInv (accumulate_children_ratio cs tc tw).1 = true ∧
          ((∀ x ∈ cs, allNodes leafRatioOk x = true) →
            allNodesF ratioInv (accumulate_children_ratio cs tc tw).1 = true) := by
  intro cs
  induction cs with
  | nil =>
    intro _ _ tc tw
    simp [accumulate_children_ratio, allNodesF]
  | cons ch chs ih =>
    intro hspec hfresh tc tw
    obtain ⟨hc1, hc2, hc3, hc4⟩ :=
      hspec ch (List.mem_cons_self ch chs) (hfresh ch (List.mem_cons_self ch chs))
    obtain ⟨ih1, ih2, ih3, ih4⟩ :=
      ih (fun x hx => hspec x (List.mem_cons_of_mem ch hx))
        (fun x hx => hfresh x (List.mem_cons_of_mem ch hx))
        (tc + (accumulate_values_ratio ch).2.1) (tw + (accumulate_values_ratio ch).2.2.1)
    rw [acc_children_ratio_cons]
    refine ⟨?_, ?_, ?_, ?_⟩
    · simp only [List.map_cons, List.sum_cons]
      rw [ih1, hc1]
      ring
    · simp only [List.map_cons, List.sum_cons]
      rw [ih2, hc2]
      ring
    · simp [allNodesF, hc3, ih3]
    · intro hlo
      have hch := (hc4 (hlo ch (List.mem_cons_self ch chs))).2
      have hchs := ih4 (fun x hx => hlo x (List.mem_cons_of_mem ch hx))
      simp [allNodesF, hch, hchs]

theorem acc_ratio_spec :
    ∀ t : VTree, fresh t = true →
      (accumulate_values_ratio t).2.1 = cum_count (accumulate_values_ratio t).1 ∧
        (accumulate_values_ratio t).2.2.1 = cum_whole (accumulate_values_ratio t).1 ∧
        allNodes ccInv (accumulate_values_ratio t).1 = true ∧
        (allNodes leafRatioOk t = true →
          (accumulate_values_ratio t).2.2.2 = cum_value (accumulate_values_ratio t).1 ∧
            allNodes ratioInv (accumulate_values_ratio t).1 = true) := by
  refine VTree.rec_mem _ ?_
  intro c v w cc cv cw cs ih hf
  obtain ⟨hcc, hcv, hcw, hchildren⟩ := (fresh_node c v w cc cv cw cs).1 hf
  cases cs with
  | nil =>
    subst hcc hcv hcw
    refine ⟨?_, ?_, ?_, ?_⟩
    · simp [accumulate_values_ratio, cum_count, VTree.cumulative_count, VTree.count]
    · simp [accumulate_values_ratio, cum_whole, VTree.cumulative_whole_count,
        VTree.whole_count]
    · simp [accumulate_values_ratio, allNodes, allNodesF, ccInv, cum_count,
        VTree.cumulative_count, VTree.count, VTree.children]
    · intro hlo
      have hleaf := ((allNodes_node_iff leafRatioOk c v w none none none []).1 hlo).1
      simp only [leafRatioOk, VTree.children, List.isEmpty_nil, if_true,
        decide_eq_true_eq, VTree.value, VTree.count, VTree.whole_count] at hleaf
      constructor
      · simp [accumulate_values_ratio, cum_value, VTree.cumulative_value, VTree.value]
      · simp only [accumulate_values_ratio]
        rw [(allNodes_node_iff ratioInv c v w none none none []).2 ?_]
        refine ⟨?_, ?_⟩
        · simp only [ratioInv, cum_value, cum_count, cum_whole, VTree.cumulative_value,
            VTree.cumulative_count, VTree.cumulative_whole_count, VTree.value, VTree.count,
            VTree.whole_count, Option.getD_none, decide_eq_true_eq]
          exact hleaf
        · intro x hx
          exact absurd hx (List.not_mem_nil x)
  | cons ch chs =>
    obtain ⟨h1, h2, h3, h4⟩ := acc_children_ratio_spec (ch :: chs) ih hchildren c w
    rw [acc_ratio_node_cons]
    refine ⟨?_, ?_, ?_, ?_⟩
    · simp [cum_count, VTree.cumulative_count]
    · simp [cum_whole, VTree.cumulative_whole_count]
    · simp only [allNodes, Bool.and_eq_true]
      refine ⟨?_, h3⟩
      simp only [ccInv, cum_count, VTree.cumulative_count, VTree.count, VTree.children,
        Option.getD_some, decide_eq_true_eq]
      exact h1
    · intro hlo
      have hmem := ((allNodes_node_iff leafRatioOk c v w cc cv cw (ch :: chs)).1 hlo).2
      constructor
      · simp [cum_value, VTree.cumulative_value]
      · simp only [allNodes, Bool.and_eq_true]
        refine ⟨?_, h4 hmem⟩
        simp only [ratioInv, cum_value, cum_count, cum_whole, VTree.cumulative_value,
          VTree.cumulative_count, VTree.cumulative_whole_count, Option.getD_some,
          decide_eq_true_eq]

theorem acc_children_count_idem :
    ∀ (cs : List VTree),
      (∀ x ∈ cs,
        accumulate_values_count ((accumulate_values_count x).1) =
          accumulate_values_count x) →
      ∀ (tc tv : ℚ),
        accumulate_children_count ((accumulate_children_count cs tc tv).1) tc tv =
          accumulate_children_count cs tc tv := by
  intro cs
  induction cs with
  | nil =>
    intro _ tc tv
    simp [accumulate_children_count]
  | cons ch chs ih =>
    intro hmem tc tv
    have hch := hmem ch (List.mem_cons_self ch chs)
    rw [acc_children_count_cons, acc_children_count_cons, hch,
      ih (fun x hx => hmem x (List.mem_cons_of_mem ch hx))]

theorem acc_count_idem :
    ∀ t : VTree,
      accumulate_values_count ((accumulate_values_count t).1) = accumulate_values_count t := by
  refine VTree.rec_mem _ ?_
  intro c v w cc cv cw cs ih
  cases cs with
  | nil => simp [accumulate_values_count]
  | cons ch chs =>
    have hidem := acc_children_count_idem (ch :: chs) ih c v
    have hcons :
        (accumulate_children_count (ch :: chs) c v).1 =
          (accumulate_values_count ch).1 ::
            (accumulate_children_count chs (c + (accumulate_values_count ch).2.1)
              (v + (accumulate_values_count ch).2.2)).1 := by
      rw [acc_children_count_cons]
    rw [hcons] at hidem
    rw [acc_count_node_cons]
    rw [hcons, acc_count_node_cons]
    rw [hidem, hcons]

theorem acc_children_ratio_idem :
    ∀ (cs : List VTree),
      (∀ x ∈ cs,
        accumulate_values_ratio ((accumulate_values_ratio x).1) =
          accumulate_values_ratio x) →
      ∀ (tc tw : ℚ),
        accumulate_children_ratio ((accumulate_children_ratio cs tc tw).1) tc tw =
          accumulate_children_ratio cs tc tw := by
  intro cs
  induction cs with
  | nil =>
    intro _ tc tw
    simp [accumulate_children_ratio]
  | cons ch chs ih =>
    intro hmem tc tw
    have hch := hmem ch (List.mem_cons_self ch chs)
    rw [acc_children_ratio_cons, acc_children_ratio_cons, hch,
      ih (fun x hx => hmem x (List.mem_cons_of_mem ch hx))]

theorem acc_ratio_idem :
    ∀ t : VTree,
      accumulate_values_ratio ((accumulate_values_ratio t).1) = accumulate_values_ratio t := by
  refine VTree.rec_mem _ ?_
  intro c v w cc cv cw cs ih
  cases cs with
  | nil => simp [accumulate_values_ratio]
  | cons ch chs =>
    have hidem := acc_children_ratio_idem (ch :: chs) ih c w
    have hcons :
        (accumulate_children_ratio (ch :: chs) c w).1 =
          (accumulate_values_ratio ch).1 ::
            (accumulate_children_ratio chs (c + (accumulate_values_ratio ch).2.1)
              (w + (accumulate_values_ratio ch).2.2.1)).1 := by
      rw [acc_children_ratio_cons]
    rw [hcons] at hidem
    rw [acc_ratio_node_cons]
    rw [hcons, acc_ratio_node_cons]
    rw [hidem, hcons]

theorem acc_children_count_frame :
    ∀ (cs : List VTree),
      (∀ x ∈ cs, fresh x = true →
        allNodes cumOnInternal (accumulate_values_count x).1 = true) →
      (∀ x ∈ cs, fresh x = true) →
      ∀ (tc tv : ℚ),
        allNodesF cumOnInternal (accumulate_children_count cs tc tv).1 = true := by
  intro cs
  induction cs with
  | nil =>
    intro _ _ tc tv
    simp [accumulate_children_count, allNodesF]
  | cons ch chs ih =>
    intro hspec hfresh tc tv
    rw [acc_children_count_cons]
    have hch :=
      hspec ch (List.mem_cons_self ch chs) (hfresh ch (List.mem_cons_self ch chs))
    have hchs :=
      ih (fun x hx => hspec x (List.mem_cons_of_mem ch hx))
        (fun x hx => hfresh x (List.mem_cons_of_mem ch hx))
        (tc + (accumulate_values_count ch).2.1) (tv + (accumulate_values_count ch).2.2)
    simp [allNodesF, hch, hchs]

theorem acc_count_frame :
    ∀ t : VTree, fresh t = true →
      allNodes cumOnInternal (accumulate_values_count t).1 = true := by
  refine VTree.rec_mem _ ?_
  intro c v w cc cv cw cs ih hf
  obtain ⟨hcc, hcv, hcw, hchildren⟩ := (fresh_node c v w cc cv cw cs).1 hf
  cases cs with
  | nil =>
    subst hcc hcv hcw
    simp [accumulate_values_count, allNodes, allNodesF, cumOnInternal, VTree.children,
      VTree.cumulative_count, VTree.cumulative_value]
  | cons ch chs =>
    have hframe := acc_children_count_frame (ch :: chs) ih hchildren c v
    have hcons :
        (accumulate_children_count (ch :: chs) c v).1 =
          (accumulate_values_count ch).1 ::
            (accumulate_children_count chs (c + (accumulate_values_count ch).2.1)
              (v + (accumulate_values_count ch).2.2)).1 := by
      rw [acc_children_count_cons]
    rw [acc_count_node_cons]
    rw [(allNodes_node_iff cumOnInternal _ _ _ _ _ _ _)]
    refine ⟨?_, (allNodesF_iff cumOnInternal _).1 hframe⟩
    rw [hcons]
    simp [cumOnInternal, VTree.children, VTree.cumulative_count, VTree.cumulative_value]

theorem acc_children_ratio_frame :
    ∀ (cs : List VTree),
      (∀ x ∈ cs, fresh x = true →
        allNodes cumOnInternalR (accumulate_values_ratio x).1 = true) →
      (∀ x ∈ cs, fresh x = true) →
      ∀ (tc tw : ℚ),
        allNodesF cumOnInternalR (accumulate_children_ratio cs tc tw).1 = true := by
  intro cs
  induction cs with
  | nil =>
    intro _ _ tc tw
    simp [accumulate_children_ratio, allNodesF]
  | cons ch chs ih =>
    intro hspec hfresh tc tw
    rw [acc_children_ratio_cons]
    have hch :=
      hspec ch (List.mem_cons_self ch chs) (hfresh ch (List.mem_cons_self ch chs))
    have hchs :=
      ih (fun x hx => hspec x (List.mem_cons_of_mem ch hx))
        (fun x hx => hfresh x (List.mem_cons_of_mem ch hx))
        (tc + (accumulate_values_ratio ch).2.1) (tw + (accumulate_values_ratio ch).2.2.1)
    simp [allNodesF, hch, hchs]

theorem acc_ratio_frame :
    ∀ t : VTree, fresh t = true →
      allNodes cumOnInternalR (accumulate_values_ratio t).1 = true := by
  refine VTree.rec_mem _ ?_
  intro c v w cc cv cw cs ih hf
  obtain ⟨hcc, hcv, hcw, hchildren⟩ := (fresh_node c v w cc cv cw cs).1 hf
  cases cs with
  | nil =>
    subst hcc hcv hcw
    simp [accumulate_values_ratio, allNodes, allNodesF, cumOnInternalR, VTree.children,
      VTree.cumulative_count, VTree.cumulative_value, VTree.cumulative_whole_count]
  | cons ch chs =>
    have hframe := acc_children_ratio_frame (ch :: chs) ih hchildren c w
    have hcons :
        (accumulate_children_ratio (ch :: chs) c w).1 =
          (accumulate_values_ratio ch).1 ::
            (accumulate_children_ratio chs (c + (accumulate_values_ratio ch).2.1)
              (w + (accumulate_values_ratio ch).2.2.1)).1 := by
      rw [acc_children_ratio_cons]
    rw [acc_ratio_node_cons]
    rw [(allNodes_node_iff cumOnInternalR _ _ _ _ _ _ _)]
    refine ⟨?_, (allNodesF_iff cumOnInternalR _).1 hframe⟩
    rw [hcons]
    simp [cumOnInternalR, VTree.children, VTree.cumulative_count, VTree.cumulative_value,
      VTree.cumulative_whole_count]

/-! ## Aggregation claim theorems -/

/-- C1: after `accumulate_values` runs on a built topology tree whose nodes
carry only their own count/value (no cumulative feature yet), every node
satisfies `cumulativeCount = count + Σ children cumulativeCount` (both
modes), and in count mode likewise
`cumulativeValue = value + Σ children cumulativeValue`, where a leaf's
cumulative reading is its own value (the `tree_to_dict` fallback of lines
957–958). -/
theorem accumulate_cumulative_sum_invariant (t : VTree) (h : fresh t = true) :
    allNodes ccInv (accumulate_values_count t).1 = true ∧
      allNodes cvInv (accumulate_values_count t).1 = true ∧
      allNodes ccInv (accumulate_values_ratio t).1 = true :=
  ⟨(acc_count_spec t h).2.2.1, (acc_count_spec t h).2.2.2, (acc_ratio_spec t h).2.2.1⟩

/-- C1 witness, concretising `accumulate_cumulative_sum_invariant` on a two-level
tree with nonzero counts and values. -/
theorem accumulate_cumulative_sum_invariant_witness :
    allNodes ccInv (accumulate_values_count exVTree).1 = true ∧
      allNodes cvInv (accumulate_values_count exVTree).1 = true ∧
      allNodes ccInv (accumulate_values_ratio exVTree).1 = true :=
  accumulate_cumulative_sum_invariant exVTree (by decide)

/-- C5: in ratio mode, after aggregation of a fresh tree whose leaves carry
`value = count / whole_count` (0 for a 0 denominator, which is how both
`read_data` line 145 and the `process_node` default of line 233–235 assign
them), every node satisfies
`cumulativeValue = cumulativeCount / cumulativeWholeCount` when the
denominator is nonzero and `cumulativeValue = 0` when it is zero — a
defined degenerate result, not an error. -/
theorem ratio_cumulative_value_division (t : VTree) (h1 : fresh t = true)
    (h2 : allNodes leafRatioOk t = true) :
    allNodes ratioInv (accumulate_values_ratio t).1 = true :=
  ((acc_ratio_spec t h1).2.2.2 h2).2

/-- C5 witness, concretising `ratio_cumulative_value_division`, with one leaf of
ratio 3/4 and one all-zero leaf (zero denominator). -/
theorem ratio_cumulative_value_division_witness :
    allNodes ratioInv (accumulate_values_ratio exRTree).1 = true :=
  ratio_cumulative_value_division exRTree (by decide)
    (by norm_num [exRTree, allNodes, allNodesF, leafRatioOk, VTree.children, VTree.value,
      VTree.count, VTree.whole_count])

/-- C8 (amended): running `accumulate_values` a second time on an already-aggregated tree
returns exactly the first run's result: the pass reads only the `count`,
`value` and `whole_count` features, which it never mutates, and
`add_feature` overwrites the cumulative features, so re-aggregation is
idempotent in both modes. -/
theorem accumulate_values_idempotent (t : VTree) :
    accumulate_values_count ((accumulate_values_count t).1) = accumulate_values_count t ∧
      accumulate_values_ratio ((accumulate_values_ratio t).1) = accumulate_values_ratio t :=
  ⟨acc_count_idem t, acc_ratio_idem t⟩

/-- C8 counterexample: refutes the claim that a second `accumulate_values` run
double-counts: no tree exists on which rerunning the pass (in either mode)
changes the attached features or the returned totals. -/
theorem accumulate_rerun_never_differs :
    ¬ ∃ t : VTree,
        accumulate_values_count ((accumulate_values_count t).1) ≠
            accumulate_values_count t ∨
          accumulate_values_ratio ((accumulate_values_ratio t).1) ≠
            accumulate_values_ratio t := by
  rintro ⟨t, h | h⟩
  · exact h (acc_count_idem t)
  · exact h (acc_ratio_idem t)

/-- C10: `accumulate_values` attaches cumulative features only to nodes with
children: a childless node is returned untouched by either mode (lines
165–169), and after the pass on a fresh tree the cumulative features are
present exactly on internal nodes; the exporter `tree_to_dict` then
substitutes the leaf's own `count` and `value` for the absent
`cumulative_count` and `cumulative_value` fields (lines 957–958). -/
theorem accumulate_leaf_frame (t : VTree) (c v w : ℚ) (cw : Option ℚ) :
    (t.children = [] →
        (accumulate_values_count t).1 = t ∧ (accumulate_values_ratio t).1 = t) ∧
      (fresh t = true →
        allNodes cumOnInternal (accumulate_values_count t).1 = true ∧
          allNodes cumOnInternalR (accumulate_values_ratio t).1 = true) ∧
      tree_to_dict (.node c v w none none cw []) = .mk c v c v w cw [] := by
  refine ⟨?_, fun hf => ⟨acc_count_frame t hf, acc_ratio_frame t hf⟩, ?_⟩
  · intro h
    cases t with
    | node c' v' w' cc' cv' cw' cs' =>
      simp only [VTree.children] at h
      subst h
      exact ⟨by simp [accumulate_values_count], by simp [accumulate_values_ratio]⟩
  · simp [tree_to_dict, tree_to_dictF]
